import Mathlib

/-!
Verification of the sudoku solver/generator core (sudoku.py / sudoku_solve.py).

The program is embedded shallowly:

* a numpy 9x9 board becomes `Grid := Fin 9 → Fin 9 → ℕ`;
* `random.randrange` / `random.randint` draws are modelled by an ambient
  tape `tape : ℕ → ℕ` together with a position that is threaded through
  every operation; a draw at position `p` from a range of size `n` yields
  `tape p % n`, and the position advances by one;
* the shared mutable `self.solution` slot of `Solver` is threaded through
  the recursion as an explicit `Option Grid` value, mirroring the control
  flow of the source exactly (including the extra pop performed by an
  ancestor frame after a deeper recursion has already found a solution);
* Python `None` returns become `none`; a numpy `TypeError` that the source
  would raise (subtracting `None` from an array in `Solver.unique`) is
  modelled by an explicit `none`-valued error outcome.
-/

/-- A 9x9 sudoku board: cell values are natural numbers, `0` meaning empty. -/
def Grid : Type := Fin 9 → Fin 9 → ℕ

instance : DecidableEq Grid := by
  unfold Grid; infer_instance

/-- Functional update of a single cell, modelling `board[y][x] = v`. -/
def update (g : Grid) (y x : Fin 9) (v : ℕ) : Grid :=
  fun i j => if i = y ∧ j = x then v else g i j

/-- `y // 3 * 3 + i`: the row (resp. column) index of a cell of the 3x3 box
whose top-left corner is obtained by snapping `y` to a multiple of 3. -/
def boxIdx (a : Fin 9) (i : Fin 3) : Fin 9 :=
  ⟨a.val / 3 * 3 + i.val, by
    have h1 := a.isLt
    have h2 := i.isLt
    omega⟩

/-- `can_place(y, x, value, board)` from the source: scans row `y` and
column `x` (`for i in range(9)`), then the 3x3 box containing `(y, x)`
(`square_x = x // 3 * 3`, `square_y = y // 3 * 3`), and returns `False`
as soon as any scanned cell holds `value`. -/
def can_place (y x : Fin 9) (value : ℕ) (board : Grid) : Bool :=
  ((List.finRange 9).all fun i => board y i != value && board i x != value)
    &&
  ((List.finRange 3).all fun i => (List.finRange 3).all fun j =>
      board (boxIdx y j) (boxIdx x i) != value)

/-- Row-major list of all 81 cell coordinates, as `np.ndenumerate` visits them. -/
def cellsList : List (Fin 9 × Fin 9) :=
  (List.finRange 9).flatMap fun y => (List.finRange 9).map fun x => (y, x)

/-- The first empty cell in row-major order: the cell the source's
`for (y, x), n in np.ndenumerate(sudoku): if n == 0:` settles on. -/
def findEmpty (g : Grid) : Option (Fin 9 × Fin 9) :=
  cellsList.find? fun p => g p.1 p.2 == 0

/-- Number of empty (zero) cells of a grid. -/
def zerosCount (g : Grid) : ℕ :=
  (Finset.univ.filter fun p : Fin 9 × Fin 9 => g p.1 p.2 = 0).card

/-- `np.count_nonzero`: the number of non-zero cells of a grid. -/
def nonZeroCount (g : Grid) : ℕ :=
  (Finset.univ.filter fun p : Fin 9 × Fin 9 => g p.1 p.2 ≠ 0).card

theorem mem_cellsList (p : Fin 9 × Fin 9) : p ∈ cellsList := by
  rcases p with ⟨y, x⟩
  simp [cellsList]

theorem findEmpty_zero {g : Grid} {yx : Fin 9 × Fin 9}
    (h : findEmpty g = some yx) : g yx.1 yx.2 = 0 := by
  have := List.find?_some h
  simpa using this

theorem findEmpty_none_iff {g : Grid} :
    findEmpty g = none ↔ ∀ y x : Fin 9, g y x ≠ 0 := by
  unfold findEmpty
  rw [List.find?_eq_none]
  constructor
  · intro h y x
    have := h (y, x) (mem_cellsList _)
    simpa using this
  · intro h p _
    simpa using h p.1 p.2

theorem update_self (g : Grid) (y x : Fin 9) (v : ℕ) :
    update g y x v y x = v := by
  simp [update]

theorem update_ne (g : Grid) (y x : Fin 9) (v : ℕ) {i j : Fin 9}
    (h : ¬(i = y ∧ j = x)) : update g y x v i j = g i j := by
  simp [update, h]

theorem update_update (g : Grid) (y x : Fin 9) (v w : ℕ) :
    update (update g y x v) y x w = update g y x w := by
  funext i j
  by_cases h : i = y ∧ j = x <;> simp [update, h]

theorem zerosCount_update_lt {g : Grid} {y x : Fin 9} {v : ℕ}
    (h0 : g y x = 0) (hv : v ≠ 0) :
    zerosCount (update g y x v) < zerosCount g := by
  unfold zerosCount
  apply Finset.card_lt_card
  constructor
  · intro p hp
    simp only [Finset.mem_filter, Finset.mem_univ, true_and] at hp ⊢
    by_cases hpy : p.1 = y ∧ p.2 = x
    · rw [show p = (p.1, p.2) from rfl] at hp
      rw [hpy.1, hpy.2] at hp
      rw [update_self] at hp
      exact absurd hp hv
    · rwa [update_ne g y x v hpy] at hp
  · intro hsub
    have hyx : (y, x) ∈ Finset.univ.filter fun p : Fin 9 × Fin 9 => g p.1 p.2 = 0 := by
      simp [h0]
    have := hsub hyx
    simp only [Finset.mem_filter, Finset.mem_univ, true_and] at this
    rw [update_self] at this
    exact hv this

theorem zerosCount_le (g : Grid) : zerosCount g ≤ 81 := by
  unfold zerosCount
  calc (Finset.univ.filter fun p : Fin 9 × Fin 9 => g p.1 p.2 = 0).card
      ≤ (Finset.univ : Finset (Fin 9 × Fin 9)).card := Finset.card_filter_le _ _
    _ = 81 := by simp

theorem range19_ne_zero : ∀ n ∈ List.range' 1 9, n ≠ 0 := by decide

/-!  The solver.

`Solver.solve` copies the board, finds the first empty cell in row-major
order (if none, records the board as the solution), and otherwise pops
values out of `numbers = list(range(1, 10))` at random until a recursive
call succeeds or the candidates are exhausted.  The shared `self.solution`
slot is threaded here as the `sol : Option Grid` loop argument together
with the final returned value; the randomness tape position is threaded
alongside.

The loop writes `sudoku[y][x] = num` before each recursive call and never
clears it, so across iterations the working board is always either the
entry board `g0` or `g0` with cell `(y, x)` overwritten by a previously
tried (non-zero) candidate; two consecutive writes to the same cell
collapse (`update_update`).  That shape is carried as the `hshape`
argument, and the entry fact `g0 y x = 0` as `h0`; both exist only to
justify termination (each recursive `solveAux` call strictly decreases
the number of empty cells). -/
mutual

def solveAux (tape : ℕ → ℕ) (g : Grid) (pos : ℕ) : Option Grid × ℕ :=
  match hfe : findEmpty g with
  | none => (some g, pos)
  | some yx =>
      solveLoop tape g yx.1 yx.2 g none (List.range' 1 9) pos
        (findEmpty_zero hfe) (Or.inl rfl) range19_ne_zero
termination_by (zerosCount g, 10)

def solveLoop (tape : ℕ → ℕ) (g0 : Grid) (y x : Fin 9) (gcur : Grid)
    (sol : Option Grid) (nums : List ℕ) (pos : ℕ)
    (h0 : g0 y x = 0)
    (hshape : gcur = g0 ∨ ∃ m, m ≠ 0 ∧ gcur = update g0 y x m)
    (hnums : ∀ n ∈ nums, n ≠ 0) : Option Grid × ℕ :=
  match nums with
  | [] => (sol, pos)
  | a :: as =>
    let l := a :: as
    let k := tape pos % l.length
    let num := l.get ⟨k, Nat.mod_lt _ (Nat.succ_pos _)⟩
    let rest := l.eraseIdx k
    match sol with
    | some s => (some s, pos + 1)
    | none =>
      if can_place y x num gcur then
        let r := solveAux tape (update gcur y x num) (pos + 1)
        solveLoop tape g0 y x (update gcur y x num) r.1 rest r.2 h0
          (Or.inr ⟨num, hnums num (l.get_mem _ _), by
            rcases hshape with h | ⟨m, _, hm⟩
            · rw [h]
            · rw [hm, update_update]⟩)
          (fun n hn => hnums n ((l.eraseIdx_sublist k).mem hn))
      else
        solveLoop tape g0 y x gcur none rest (pos + 1) h0 hshape
          (fun n hn => hnums n ((l.eraseIdx_sublist k).mem hn))
termination_by (zerosCount g0, nums.length)
decreasing_by
  · apply Prod.Lex.left
    show zerosCount (update gcur y x num) < zerosCount g0
    have hnum : num ≠ 0 := hnums num (l.get_mem _ _)
    rcases hshape with h | ⟨m, _, hm⟩
    · rw [h]
      exact zerosCount_update_lt h0 hnum
    · rw [hm, update_update]
      exact zerosCount_update_lt h0 hnum
  · apply Prod.Lex.right
    have : rest.length < l.length := by
      have hk : k < l.length := Nat.mod_lt _ (Nat.succ_pos _)
      simp only [rest, List.length_eraseIdx, if_pos hk]
      have : 0 < l.length := Nat.succ_pos _
      omega
    simpa using this
  · apply Prod.Lex.right
    have : rest.length < l.length := by
      have hk : k < l.length := Nat.mod_lt _ (Nat.succ_pos _)
      simp only [rest, List.length_eraseIdx, if_pos hk]
      have : 0 < l.length := Nat.succ_pos _
      omega
    simpa using this

end

theorem zerosCount_pos {g : Grid} {y x : Fin 9} (h : g y x = 0) :
    0 < zerosCount g := by
  unfold zerosCount
  apply Finset.card_pos.mpr
  exact ⟨(y, x), by simp [h]⟩

/-- On a board with no empty cell, the backtracking loop is never entered and
the board itself is recorded as the solution at once (`self.solution = sudoku`
is the only statement reached). -/
theorem solve_full {g : Grid} (h : ∀ y x : Fin 9, g y x ≠ 0)
    (tape : ℕ → ℕ) (pos : ℕ) : solveAux tape g pos = (some g, pos) := by
  have hfe : findEmpty g = none := findEmpty_none_iff.mpr h
  rw [solveAux]
  split
  · rfl
  · rename_i yx heq
    rw [hfe] at heq
    exact Option.noConfusion heq

/-!  Fuel-indexed companion of the solver.

`solveFuelGo tape fuel g pos` runs the same algorithm but refuses (returns
`none`) as soon as the nesting of recursive `solve` calls below the initial
one would exceed `fuel`.  It is definitionally structural, so concrete runs
reduce inside the kernel, and `solveFuelGo tape 81 g pos =
some (solveAux tape g pos)` is the depth bound of the specification. -/
def fuelLoop (tape : ℕ → ℕ) (recur : Grid → ℕ → Option (Option Grid × ℕ))
    (y x : Fin 9) :
    Grid → Option Grid → ℕ → List ℕ → ℕ → Option (Option Grid × ℕ)
  | _, sol, _, [], pos => some (sol, pos)
  | _, _, 0, _ :: _, _ => none
  | gcur, sol, lf + 1, a :: as, pos =>
    let l := a :: as
    let k := tape pos % l.length
    let num := l.get ⟨k, Nat.mod_lt _ (Nat.succ_pos _)⟩
    let rest := l.eraseIdx k
    match sol with
    | some s => some (some s, pos + 1)
    | none =>
      if can_place y x num gcur then
        match recur (update gcur y x num) (pos + 1) with
        | none => none
        | some r => fuelLoop tape recur y x (update gcur y x num) r.1 lf rest r.2
      else fuelLoop tape recur y x gcur none lf rest (pos + 1)

def solveFuelGo (tape : ℕ → ℕ) : ℕ → Grid → ℕ → Option (Option Grid × ℕ)
  | fuel, g, pos =>
    match findEmpty g with
    | none => some (some g, pos)
    | some yx =>
      match fuel with
      | 0 => none
      | f + 1 =>
        fuelLoop tape (solveFuelGo tape f) yx.1 yx.2 g none 9 (List.range' 1 9) pos

theorem solveAux_unfold_some (tape : ℕ → ℕ) {g : Grid} {yx : Fin 9 × Fin 9}
    (hfe : findEmpty g = some yx) (pos : ℕ) (h0 : g yx.1 yx.2 = 0) :
    solveAux tape g pos
      = solveLoop tape g yx.1 yx.2 g none (List.range' 1 9) pos h0
          (Or.inl rfl) range19_ne_zero := by
  conv_lhs => rw [solveAux.eq_def]
  split
  · rename_i heq
    rw [heq] at hfe
    exact Option.noConfusion hfe
  · rename_i yx2 heq
    rw [heq] at hfe
    cases hfe
    rfl

theorem fuelLoop_eq (tape : ℕ → ℕ) :
    ∀ (n : ℕ) (nums : List ℕ), nums.length = n →
    ∀ (fp : ℕ) (g0 : Grid) (y x : Fin 9) (gcur : Grid) (sol : Option Grid) (pos : ℕ)
      (h0 : g0 y x = 0)
      (hshape : gcur = g0 ∨ ∃ m, m ≠ 0 ∧ gcur = update g0 y x m)
      (hnums : ∀ v ∈ nums, v ≠ 0),
      zerosCount g0 ≤ fp + 1 →
      (∀ gp : Grid, zerosCount gp ≤ fp → ∀ p : ℕ,
          solveFuelGo tape fp gp p = some (solveAux tape gp p)) →
      fuelLoop tape (solveFuelGo tape fp) y x gcur sol n nums pos
        = some (solveLoop tape g0 y x gcur sol nums pos h0 hshape hnums) := by
  intro n
  induction n with
  | zero =>
    intro nums hlen fp g0 y x gcur sol pos h0 hshape hnums hz hfp
    have hnil : nums = [] := List.length_eq_zero.mp hlen
    subst hnil
    rw [solveLoop, fuelLoop]
  | succ m ih =>
    intro nums hlen fp g0 y x gcur sol pos h0 hshape hnums hz hfp
    cases nums with
    | nil => simp at hlen
    | cons a as =>
      have hm : as.length = m := by simpa using hlen
      subst hm
      cases sol with
      | some s => rw [solveLoop.eq_def, fuelLoop]
      | none =>
        rw [solveLoop.eq_def, fuelLoop]
        simp only []
        by_cases hcp :
            can_place y x
              ((a :: as).get
                ⟨tape pos % (a :: as).length, Nat.mod_lt _ (Nat.succ_pos _)⟩)
              gcur
        · rw [if_pos hcp, if_pos hcp]
          have hnum :
              (a :: as).get
                  ⟨tape pos % (a :: as).length, Nat.mod_lt _ (Nat.succ_pos _)⟩
                ≠ 0 :=
            hnums _ ((a :: as).get_mem _ _)
          have hlt :
              zerosCount
                  (update gcur y x
                    ((a :: as).get
                      ⟨tape pos % (a :: as).length, Nat.mod_lt _ (Nat.succ_pos _)⟩))
                < zerosCount g0 := by
            rcases hshape with h | ⟨mm, _, hmm⟩
            · rw [h]; exact zerosCount_update_lt h0 hnum
            · rw [hmm, update_update]; exact zerosCount_update_lt h0 hnum
          rw [hfp _ (by omega) (pos + 1)]
          have hrest :
              ((a :: as).eraseIdx (tape pos % (a :: as).length)).length
                = as.length := by
            have hk : tape pos % (a :: as).length < (a :: as).length :=
              Nat.mod_lt _ (Nat.succ_pos _)
            rw [List.length_eraseIdx]
            simp [hk]
            exact Nat.mod_lt _ (Nat.succ_pos _)
          exact ih _ hrest fp g0 y x _ _ _ h0 _ _ hz hfp
        · rw [if_neg hcp, if_neg hcp]
          have hrest :
              ((a :: as).eraseIdx (tape pos % (a :: as).length)).length
                = as.length := by
            have hk : tape pos % (a :: as).length < (a :: as).length :=
              Nat.mod_lt _ (Nat.succ_pos _)
            rw [List.length_eraseIdx]
            simp [hk]
            exact Nat.mod_lt _ (Nat.succ_pos _)
          exact ih _ hrest fp g0 y x _ _ _ h0 _ _ hz hfp

theorem solveFuel_eq (tape : ℕ → ℕ) :
    ∀ (f : ℕ) (g : Grid), zerosCount g ≤ f → ∀ pos : ℕ,
      solveFuelGo tape f g pos = some (solveAux tape g pos) := by
  intro f
  induction f with
  | zero =>
    intro g hz pos
    have hall : ∀ y x : Fin 9, g y x ≠ 0 := by
      intro y x hcontra
      exact absurd (zerosCount_pos hcontra) (by omega)
    have hfe : findEmpty g = none := findEmpty_none_iff.mpr hall
    rw [solve_full hall tape pos, solveFuelGo, hfe]
  | succ f ih =>
    intro g hz pos
    rw [solveFuelGo]
    cases hfe : findEmpty g with
    | none => rw [solve_full (findEmpty_none_iff.mp hfe) tape pos]
    | some yx =>
      have h0 : g yx.1 yx.2 = 0 := findEmpty_zero hfe
      rw [solveAux_unfold_some tape hfe pos h0]
      exact fuelLoop_eq tape 9 (List.range' 1 9) rfl f g yx.1 yx.2 g none pos h0
        (Or.inl rfl) range19_ne_zero
        (by have := zerosCount_pos h0; omega) ih

/-!  Validity (spec §3): for every non-zero value, no other cell in its row,
column, or 3x3 box holds the same value. -/

/-- Two coordinates lie in the same 3x3 box. -/
def sameBox (p q : Fin 9 × Fin 9) : Prop :=
  p.1.val / 3 = q.1.val / 3 ∧ p.2.val / 3 = q.2.val / 3

instance : DecidablePred (fun pq : (Fin 9 × Fin 9) × (Fin 9 × Fin 9) => sameBox pq.1 pq.2) :=
  fun _ => by unfold sameBox; infer_instance

/-- The full-grid validity invariant: no value repeated in any row, column,
or 3x3 box (spec §3). -/
def ValidGrid (g : Grid) : Prop :=
  ∀ p q : Fin 9 × Fin 9, p ≠ q → g p.1 p.2 ≠ 0 →
    (p.1 = q.1 ∨ p.2 = q.2 ∨ sameBox p q) → g p.1 p.2 ≠ g q.1 q.2

instance : DecidablePred ValidGrid :=
  fun g => by unfold ValidGrid sameBox; infer_instance

/-- All cell values lie in `[0, 9]` (the spec's grid data model). -/
def InRange (g : Grid) : Prop := ∀ y x : Fin 9, g y x ≤ 9

instance : DecidablePred InRange :=
  fun g => by unfold InRange; infer_instance

/-- Fully populated with values 1-9. -/
def Full19 (g : Grid) : Prop := ∀ y x : Fin 9, 1 ≤ g y x ∧ g y x ≤ 9

instance : DecidablePred Full19 :=
  fun g => by unfold Full19; infer_instance

/-- Every non-zero cell of `g` keeps its value in `s`. -/
def Keeps (g s : Grid) : Prop := ∀ y x : Fin 9, g y x ≠ 0 → s y x = g y x

instance : DecidablePred (fun gs : Grid × Grid => Keeps gs.1 gs.2) :=
  fun _ => by unfold Keeps; infer_instance

theorem can_place_iff (y x : Fin 9) (v : ℕ) (g : Grid) :
    can_place y x v g = true ↔
      (∀ i : Fin 9, g y i ≠ v) ∧ (∀ i : Fin 9, g i x ≠ v) ∧
      (∀ i j : Fin 3, g (boxIdx y j) (boxIdx x i) ≠ v) := by
  unfold can_place
  simp only [Bool.and_eq_true, List.all_eq_true, List.mem_finRange, bne_iff_ne, ne_eq,
    true_implies, forall_const]
  constructor
  · rintro ⟨hrc, hbox⟩
    exact ⟨fun i => (hrc i).1, fun i => (hrc i).2, fun i j => hbox i j⟩
  · rintro ⟨hrow, hcol, hbox⟩
    exact ⟨fun i => ⟨hrow i, hcol i⟩, fun i j => hbox i j⟩

/-- A coordinate in the same 3-block as `a` is one of the cells the box scan
of `can_place` visits. -/
theorem eq_boxIdx {a b : Fin 9} (h : a.val / 3 = b.val / 3) :
    b = boxIdx a ⟨b.val % 3, Nat.mod_lt _ (by omega)⟩ := by
  apply Fin.ext
  show b.val = a.val / 3 * 3 + b.val % 3
  have hb := b.isLt
  omega

/-- If `can_place` approves `v` at `(y, x)`, then `v` occurs nowhere in
row `y`, column `x`, or the box of `(y, x)`. -/
theorem can_place_all_cells {g : Grid} {y x : Fin 9} {v : ℕ}
    (hcp : can_place y x v g = true) (q : Fin 9 × Fin 9)
    (hq : y = q.1 ∨ x = q.2 ∨ sameBox (y, x) q) : g q.1 q.2 ≠ v := by
  rw [can_place_iff] at hcp
  rcases hq with h | h | ⟨h1, h2⟩
  · rw [← h]
    exact hcp.1 q.2
  · rw [← h]
    exact hcp.2.1 q.1
  · have e1 := eq_boxIdx h1
    have e2 := eq_boxIdx h2
    rw [e1, e2]
    exact hcp.2.2 _ _

/-- `can_place` only reads the scanned cells, all of which agree between
`gp` and `g` except possibly `(y, x)` itself, which is `0` in `g`. -/
theorem can_place_mono {g gp : Grid} {y x : Fin 9} {v : ℕ} (hv : v ≠ 0)
    (hagree : ∀ i j : Fin 9, ¬(i = y ∧ j = x) → gp i j = g i j)
    (h0 : g y x = 0) (hcp : can_place y x v gp = true) :
    can_place y x v g = true := by
  rw [can_place_iff] at hcp ⊢
  exact ⟨fun i => by
      by_cases hij : (y = y ∧ i = x)
      · rw [hij.2, h0]; omega
      · rw [← hagree y i (by tauto)]; exact hcp.1 i,
    fun i => by
      by_cases hij : (i = y ∧ x = x)
      · rw [hij.1, h0]; omega
      · rw [← hagree i x (by tauto)]; exact hcp.2.1 i,
    fun i j => by
      by_cases hij : (boxIdx y j = y ∧ boxIdx x i = x)
      · rw [hij.1, hij.2, h0]; omega
      · rw [← hagree _ _ hij]; exact hcp.2.2 i j⟩

theorem sameBox_symm {p q : Fin 9 × Fin 9} (h : sameBox p q) : sameBox q p :=
  ⟨h.1.symm, h.2.symm⟩

theorem update_ne_coord {g : Grid} {y x : Fin 9} {v : ℕ} {p : Fin 9 × Fin 9}
    (h : p ≠ (y, x)) : update g y x v p.1 p.2 = g p.1 p.2 := by
  apply update_ne
  rintro ⟨h1, h2⟩
  exact h (Prod.ext h1 h2)

/-- Placing an approved, non-zero value on an empty cell of a valid grid
yields a valid grid: the backtracking step preserves the invariant. -/
theorem valid_update {g : Grid} {y x : Fin 9} {v : ℕ}
    (hv : ValidGrid g) (h0 : g y x = 0) (hvne : v ≠ 0)
    (hcp : can_place y x v g = true) : ValidGrid (update g y x v) := by
  intro p q hpq hp hunit
  by_cases hpyx : p = (y, x)
  · subst hpyx
    have hqyx : q ≠ (y, x) := fun h => hpq h.symm
    rw [update_ne_coord hqyx]
    rw [show ((y, x) : Fin 9 × Fin 9).1 = y from rfl, show ((y, x) : Fin 9 × Fin 9).2 = x from rfl,
      update_self]
    intro heq
    exact can_place_all_cells hcp q hunit heq.symm
  · by_cases hqyx : q = (y, x)
    · subst hqyx
      rw [update_ne_coord hpyx] at hp ⊢
      rw [show ((y, x) : Fin 9 × Fin 9).1 = y from rfl, show ((y, x) : Fin 9 × Fin 9).2 = x from rfl,
        update_self]
      have hunit2 : y = p.1 ∨ x = p.2 ∨ sameBox (y, x) p := by
        rcases hunit with h | h | h
        · exact Or.inl h.symm
        · exact Or.inr (Or.inl h.symm)
        · exact Or.inr (Or.inr (sameBox_symm h))
      exact can_place_all_cells hcp p hunit2
    · rw [update_ne_coord hpyx] at hp ⊢
      rw [update_ne_coord hqyx]
      exact hv p q hpq hp hunit

/-- Updating one cell with a value ≤ 9 keeps all values ≤ 9. -/
theorem inRange_update {g : Grid} {y x : Fin 9} {v : ℕ}
    (hr : InRange g) (hv : v ≤ 9) : InRange (update g y x v) := by
  intro yy xx
  by_cases h : yy = y ∧ xx = x
  · rw [h.1, h.2, update_self]; exact hv
  · rw [update_ne g y x v h]; exact hr yy xx

theorem range19_le9 : ∀ v ∈ List.range' 1 9, v ≤ 9 := by decide

theorem keeps_of_update {g0 : Grid} {y x : Fin 9} {num : ℕ} (h0 : g0 y x = 0)
    {s0 : Grid} (hk : Keeps (update g0 y x num) s0) : Keeps g0 s0 := by
  intro yy xx hnz
  have hne : ¬(yy = y ∧ xx = x) := by
    rintro ⟨e1, e2⟩
    rw [e1, e2] at hnz
    exact hnz h0
  rw [hk yy xx (by rw [update_ne g0 y x num hne]; exact hnz), update_ne g0 y x num hne]

/-- Soundness of the candidate loop: any solution it hands back preserves the
non-zero cells of the entry grid, is valid, and is fully populated with 1-9;
the induction hypothesis for smaller boards is threaded in as `ihg`. -/
theorem solveLoop_sound (tape : ℕ → ℕ) :
    ∀ (n : ℕ) (nums : List ℕ), nums.length = n →
    ∀ (g0 : Grid) (y x : Fin 9) (gcur : Grid) (sol : Option Grid) (pos : ℕ)
      (h0 : g0 y x = 0)
      (hshape : gcur = g0 ∨ ∃ m, m ≠ 0 ∧ gcur = update g0 y x m)
      (hnums : ∀ v ∈ nums, v ≠ 0),
      (∀ v ∈ nums, v ≤ 9) →
      InRange g0 → ValidGrid g0 →
      (∀ gp : Grid, zerosCount gp < zerosCount g0 → InRange gp → ValidGrid gp →
        ∀ (p : ℕ) (sp : Grid) (pf : ℕ), solveAux tape gp p = (some sp, pf) →
          Keeps gp sp ∧ ValidGrid sp ∧ Full19 sp) →
      (∀ s0 : Grid, sol = some s0 → Keeps g0 s0 ∧ ValidGrid s0 ∧ Full19 s0) →
      ∀ (s : Grid) (posf : ℕ),
        solveLoop tape g0 y x gcur sol nums pos h0 hshape hnums = (some s, posf) →
        Keeps g0 s ∧ ValidGrid s ∧ Full19 s := by
  intro n
  induction n with
  | zero =>
    intro nums hlen g0 y x gcur sol pos h0 hshape hnums hnums9 hr hv ihg hsol s posf hs
    have hnil : nums = [] := List.length_eq_zero.mp hlen
    subst hnil
    rw [solveLoop] at hs
    simp only [Prod.mk.injEq] at hs
    exact hsol s hs.1
  | succ m ih =>
    intro nums hlen g0 y x gcur sol pos h0 hshape hnums hnums9 hr hv ihg hsol s posf hs
    cases nums with
    | nil => simp at hlen
    | cons a as =>
      have hm : as.length = m := by simpa using hlen
      cases sol with
      | some s0 =>
        rw [solveLoop.eq_def] at hs
        simp only [Prod.mk.injEq, Option.some.injEq] at hs
        exact hs.1 ▸ hsol s0 rfl
      | none =>
        rw [solveLoop.eq_def] at hs
        simp only [] at hs
        by_cases hcp :
            can_place y x
              ((a :: as).get
                ⟨tape pos % (a :: as).length, Nat.mod_lt _ (Nat.succ_pos _)⟩)
              gcur = true
        · rw [if_pos hcp] at hs
          have hnmem :
              (a :: as).get
                  ⟨tape pos % (a :: as).length, Nat.mod_lt _ (Nat.succ_pos _)⟩
                ∈ a :: as := (a :: as).get_mem _ _
          have hnne := hnums _ hnmem
          have hn9 := hnums9 _ hnmem
          have hgup :
              update gcur y x
                  ((a :: as).get
                    ⟨tape pos % (a :: as).length, Nat.mod_lt _ (Nat.succ_pos _)⟩)
                = update g0 y x
                    ((a :: as).get
                      ⟨tape pos % (a :: as).length, Nat.mod_lt _ (Nat.succ_pos _)⟩) := by
            rcases hshape with h | ⟨mm, _, hmm⟩
            · rw [h]
            · rw [hmm, update_update]
          have hagree : ∀ i j : Fin 9,
              ¬(i = y ∧ j = x) → gcur i j = g0 i j := by
            intro i j hij
            rcases hshape with h | ⟨mm, _, hmm⟩
            · rw [h]
            · rw [hmm, update_ne g0 y x mm hij]
          have hcp0 :
              can_place y x
                ((a :: as).get
                  ⟨tape pos % (a :: as).length, Nat.mod_lt _ (Nat.succ_pos _)⟩)
                g0 = true :=
            can_place_mono hnne hagree h0 hcp
          have hlt :
              zerosCount
                  (update gcur y x
                    ((a :: as).get
                      ⟨tape pos % (a :: as).length, Nat.mod_lt _ (Nat.succ_pos _)⟩))
                < zerosCount g0 := by
            rw [hgup]
            exact zerosCount_update_lt h0 hnne
          have hrp :
              InRange
                (update gcur y x
                  ((a :: as).get
                    ⟨tape pos % (a :: as).length, Nat.mod_lt _ (Nat.succ_pos _)⟩)) := by
            rw [hgup]
            exact inRange_update hr hn9
          have hvp :
              ValidGrid
                (update gcur y x
                  ((a :: as).get
                    ⟨tape pos % (a :: as).length, Nat.mod_lt _ (Nat.succ_pos _)⟩)) := by
            rw [hgup]
            exact valid_update hv h0 hnne hcp0
          have hsolp : ∀ s0 : Grid,
              (solveAux tape
                  (update gcur y x
                    ((a :: as).get
                      ⟨tape pos % (a :: as).length, Nat.mod_lt _ (Nat.succ_pos _)⟩))
                  (pos + 1)).1 = some s0 →
              Keeps g0 s0 ∧ ValidGrid s0 ∧ Full19 s0 := by
            intro s0 hs0
            have heq :
                solveAux tape
                    (update gcur y x
                      ((a :: as).get
                        ⟨tape pos % (a :: as).length, Nat.mod_lt _ (Nat.succ_pos _)⟩))
                    (pos + 1)
                  = (some s0,
                      (solveAux tape
                        (update gcur y x
                          ((a :: as).get
                            ⟨tape pos % (a :: as).length, Nat.mod_lt _ (Nat.succ_pos _)⟩))
                        (pos + 1)).2) := by
              rw [← hs0]
            obtain ⟨hk, hvs, hf⟩ := ihg _ hlt hrp hvp (pos + 1) s0 _ heq
            refine ⟨?_, hvs, hf⟩
            rw [hgup] at hk
            exact keeps_of_update h0 hk
          have hrest :
              ((a :: as).eraseIdx (tape pos % (a :: as).length)).length
                = as.length := by
            have hk : tape pos % (a :: as).length < (a :: as).length :=
              Nat.mod_lt _ (Nat.succ_pos _)
            rw [List.length_eraseIdx]
            simp [hk]
            exact Nat.mod_lt _ (Nat.succ_pos _)
          exact ih _ (by rw [hrest, hm]) g0 y x _ _ _ h0 _ _
            (fun v hvm => hnums9 v (((a :: as).eraseIdx_sublist _).mem hvm))
            hr hv ihg hsolp s posf hs
        · rw [if_neg hcp] at hs
          have hrest :
              ((a :: as).eraseIdx (tape pos % (a :: as).length)).length
                = as.length := by
            have hk : tape pos % (a :: as).length < (a :: as).length :=
              Nat.mod_lt _ (Nat.succ_pos _)
            rw [List.length_eraseIdx]
            simp [hk]
            exact Nat.mod_lt _ (Nat.succ_pos _)
          exact ih _ (by rw [hrest, hm]) g0 y x _ _ _ h0 _ _
            (fun v hvm => hnums9 v (((a :: as).eraseIdx_sublist _).mem hvm))
            hr hv ihg (fun s0 hcon => Option.noConfusion hcon) s posf hs

/-- Solver soundness over valid in-range inputs: whenever `solve` reports a
solution, the solution keeps every given clue, is fully populated with
values 1-9, and satisfies the validity invariant. -/
theorem solve_sound (tape : ℕ → ℕ) :
    ∀ (N : ℕ) (g : Grid), zerosCount g ≤ N → InRange g → ValidGrid g →
    ∀ (pos : ℕ) (s : Grid) (posf : ℕ), solveAux tape g pos = (some s, posf) →
      Keeps g s ∧ ValidGrid s ∧ Full19 s := by
  intro N
  induction N with
  | zero =>
    intro g hz hr hv pos s posf hs
    have hall : ∀ y x : Fin 9, g y x ≠ 0 := fun y x hc =>
      absurd (zerosCount_pos hc) (by omega)
    rw [solve_full hall tape pos] at hs
    simp only [Prod.mk.injEq, Option.some.injEq] at hs
    rw [← hs.1]
    exact ⟨fun yy xx _ => rfl, hv,
      fun yy xx => ⟨Nat.one_le_iff_ne_zero.mpr (hall yy xx), hr yy xx⟩⟩
  | succ N ihN =>
    intro g hz hr hv pos s posf hs
    cases hfe : findEmpty g with
    | none =>
      have hall := findEmpty_none_iff.mp hfe
      rw [solve_full hall tape pos] at hs
      simp only [Prod.mk.injEq, Option.some.injEq] at hs
      rw [← hs.1]
      exact ⟨fun yy xx _ => rfl, hv,
        fun yy xx => ⟨Nat.one_le_iff_ne_zero.mpr (hall yy xx), hr yy xx⟩⟩
    | some yx =>
      rw [solveAux_unfold_some tape hfe pos (findEmpty_zero hfe)] at hs
      exact solveLoop_sound tape 9 (List.range' 1 9) rfl g yx.1 yx.2 g none pos
        (findEmpty_zero hfe) (Or.inl rfl) range19_ne_zero range19_le9 hr hv
        (fun gp hlt hrp hvp p sp pf hsp => ihN gp (by omega) hrp hvp p sp pf hsp)
        (fun s0 hcon => Option.noConfusion hcon) s posf hs

/-!  The uniqueness oracle `Solver.unique`.

`unique(board, depth)` solves once to obtain `first_solution`, then solves
`depth` more times (`for i in range(depth)`), returning `False` at the
first re-solve whose result differs (`np.any(self.solution -
first_solution)`), and `True` if all `depth` repeats match.  If any of the
solves leaves `self.solution = None`, the subtraction raises a `TypeError`;
that outcome is modelled as the result `none`. -/
def uniqueGo (tape : ℕ → ℕ) (g : Grid) (first : Option Grid) :
    ℕ → ℕ → Option Bool × ℕ
  | 0, pos => (some true, pos)
  | d + 1, pos =>
    match solveAux tape g pos, first with
    | (some s, p), some f =>
      if s = f then uniqueGo tape g first d p else (some false, p)
    | (_, p), _ => (none, p)

def unique (tape : ℕ → ℕ) (g : Grid) (depth : ℕ) (pos : ℕ) : Option Bool × ℕ :=
  match solveAux tape g pos with
  | (first, p) => uniqueGo tape g first depth p

/-- Tape position reached after `k` successive `solve` calls on `g`,
starting from position `pos`. -/
def nthSolvePos (tape : ℕ → ℕ) (g : Grid) (pos : ℕ) : ℕ → ℕ
  | 0 => pos
  | k + 1 => (solveAux tape g (nthSolvePos tape g pos k)).2

/-- Result of the `k`-th `solve` call on `g` in that sequence (the 0th
call is the reference solve of `unique`). -/
def nthSolve (tape : ℕ → ℕ) (g : Grid) (pos : ℕ) (k : ℕ) : Option Grid :=
  (solveAux tape g (nthSolvePos tape g pos k)).1

theorem uniqueGo_zero (tape : ℕ → ℕ) (g : Grid) (first : Option Grid) (pos : ℕ) :
    uniqueGo tape g first 0 pos = (some true, pos) := rfl

theorem uniqueGo_succ_eq (tape : ℕ → ℕ) (g : Grid) (first : Option Grid)
    (d pos : ℕ) :
    uniqueGo tape g first (d + 1) pos
      = match solveAux tape g pos, first with
        | (some s, p), some f =>
          if s = f then uniqueGo tape g first d p else (some false, p)
        | (_, p), _ => (none, p) := by
  rw [uniqueGo.eq_def]

theorem uniqueGo_succ_some {tape : ℕ → ℕ} {g : Grid} {s : Grid} {p : ℕ}
    {pos : ℕ} (f : Grid) (d : ℕ) (hsa : solveAux tape g pos = (some s, p)) :
    uniqueGo tape g (some f) (d + 1) pos
      = if s = f then uniqueGo tape g (some f) d p else (some false, p) := by
  rw [uniqueGo_succ_eq, hsa]

theorem uniqueGo_succ_none {tape : ℕ → ℕ} {g : Grid} {p : ℕ} {pos : ℕ}
    (first : Option Grid) (d : ℕ) (hsa : solveAux tape g pos = (none, p)) :
    uniqueGo tape g first (d + 1) pos = (none, p) := by
  rw [uniqueGo_succ_eq, hsa]

theorem unique_eq (tape : ℕ → ℕ) (g : Grid) (depth pos : ℕ) :
    unique tape g depth pos
      = uniqueGo tape g (solveAux tape g pos).1 depth (solveAux tape g pos).2 := rfl

theorem uniqueGo_char (tape : ℕ → ℕ) (g : Grid) (pos0 : ℕ) (f : Grid) :
    ∀ d j : ℕ,
      (∀ k : ℕ, k ≤ j + d → (nthSolve tape g pos0 k).isSome) →
      ((∀ k : ℕ, j < k → k ≤ j + d → nthSolve tape g pos0 k = some f) ∧
        uniqueGo tape g (some f) d (nthSolvePos tape g pos0 (j + 1))
          = (some true, nthSolvePos tape g pos0 (j + d + 1)))
      ∨ (∃ jj : ℕ, j < jj ∧ jj ≤ j + d ∧ nthSolve tape g pos0 jj ≠ some f ∧
          (∀ k : ℕ, j < k → k < jj → nthSolve tape g pos0 k = some f) ∧
          uniqueGo tape g (some f) d (nthSolvePos tape g pos0 (j + 1))
            = (some false, nthSolvePos tape g pos0 (jj + 1))) := by
  intro d
  induction d with
  | zero =>
    intro j hsome
    left
    constructor
    · intro k h1 h2
      omega
    · rw [uniqueGo_zero]
  | succ d ihd =>
    intro j hsome
    have hj1 : (nthSolve tape g pos0 (j + 1)).isSome := hsome (j + 1) (by omega)
    cases hsa : solveAux tape g (nthSolvePos tape g pos0 (j + 1)) with
    | mk r1 r2 =>
      have hr1 : nthSolve tape g pos0 (j + 1) = r1 := by
        unfold nthSolve
        rw [hsa]
      have hr2 : nthSolvePos tape g pos0 (j + 2) = r2 := by
        show (solveAux tape g (nthSolvePos tape g pos0 (j + 1))).2 = r2
        rw [hsa]
      cases r1 with
      | none =>
        rw [hr1] at hj1
        simp at hj1
      | some s =>
        rw [uniqueGo_succ_some f d hsa]
        by_cases hsf : s = f
        · subst hsf
          rw [if_pos rfl]
          have hmain := ihd (j + 1) (fun k hk => hsome k (by omega))
          rw [hr2] at hmain
          rcases hmain with ⟨hall, hres⟩ | ⟨jj, hj1p, hj2p, hne, hbefore, hres⟩
          · left
            constructor
            · intro k h1 h2
              by_cases hk : k = j + 1
              · rw [hk, hr1]
              · exact hall k (by omega) (by omega)
            · rw [show j + 1 + d + 1 = j + (d + 1) + 1 by omega] at hres
              exact hres
          · right
            refine ⟨jj, by omega, by omega, hne, ?_, hres⟩
            intro k h1 h2
            by_cases hk : k = j + 1
            · rw [hk, hr1]
            · exact hbefore k (by omega) (by omega)
        · rw [if_neg hsf]
          right
          refine ⟨j + 1, by omega, by omega, ?_, ?_, ?_⟩
          · rw [hr1]
            intro hcon
            exact hsf (by simpa using hcon)
          · intro k h1 h2
            omega
          · rw [hr2]

/-!  The generator (`Generator.generate` / `Generator.remove_numbers`). -/

/-- A board coordinate `(y, x)`. -/
abbrev Coord := Fin 9 × Fin 9

/-- `np.nonzero`: the row-major list of coordinates of non-zero cells. -/
def nonzeroIndices (g : Grid) : List Coord :=
  cellsList.filter fun p => g p.1 p.2 != 0

theorem nonzeroIndices_spec (g : Grid) :
    ∀ c ∈ nonzeroIndices g, g c.1 c.2 ≠ 0 := by
  intro c hc
  have := List.of_mem_filter hc
  simpa using this

theorem cellsList_length : cellsList.length = 81 := by decide

theorem cellsList_nodup : cellsList.Nodup := by decide

theorem nonzeroIndices_length_le (g : Grid) : (nonzeroIndices g).length ≤ 81 := by
  calc (nonzeroIndices g).length ≤ cellsList.length :=
        List.length_filter_le _ _
    _ = 81 := cellsList_length

theorem nonzeroIndices_nodup (g : Grid) : (nonzeroIndices g).Nodup :=
  cellsList_nodup.filter _

theorem nonzeroIndices_complete (g : Grid) {c : Coord} (hc : g c.1 c.2 ≠ 0) :
    c ∈ nonzeroIndices g := by
  unfold nonzeroIndices
  rw [List.mem_filter]
  exact ⟨mem_cellsList c, by simpa using hc⟩

theorem nonZeroCount_update_zero {g : Grid} {c : Coord} (h : g c.1 c.2 ≠ 0) :
    nonZeroCount (update g c.1 c.2 0) = nonZeroCount g - 1 := by
  unfold nonZeroCount
  have hset : (Finset.univ.filter fun p : Coord => update g c.1 c.2 0 p.1 p.2 ≠ 0)
      = (Finset.univ.filter fun p : Coord => g p.1 p.2 ≠ 0).erase c := by
    ext p
    simp only [Finset.mem_filter, Finset.mem_erase, Finset.mem_univ, true_and]
    constructor
    · intro hp
      by_cases hpc : p = c
      · subst hpc
        rw [show p.1 = (p.1, p.2).1 from rfl, show p.2 = (p.1, p.2).2 from rfl] at hp
        rw [show (p.1, p.2) = p from rfl] at hp
        rw [update_self] at hp
        exact absurd rfl hp
      · rw [update_ne_coord hpc] at hp
        exact ⟨hpc, hp⟩
    · intro ⟨hpc, hp⟩
      rw [update_ne_coord hpc]
      exact hp
  rw [hset, Finset.card_erase_of_mem (by simp [h])]

theorem nonZeroCount_pos {g : Grid} {c : Coord} (h : g c.1 c.2 ≠ 0) :
    0 < nonZeroCount g := by
  unfold nonZeroCount
  apply Finset.card_pos.mpr
  exact ⟨c, by simp [h]⟩

theorem nonZeroCount_update_lt {g : Grid} {c : Coord} (h : g c.1 c.2 ≠ 0) :
    nonZeroCount (update g c.1 c.2 0) < nonZeroCount g := by
  rw [nonZeroCount_update_zero h]
  have := nonZeroCount_pos h
  omega

/-- The candidate-drawing loop of `remove_numbers`:

    y, x = indices.pop(random.randrange(len(indices)))
    while (y, x) in excluded_nums and indices:
        y, x = indices.pop(random.randrange(len(indices)))

`popSkip` returns `none` when `indices` is empty (the surrounding
`while indices:` is not entered), and otherwise the drawn coordinate,
the remaining list and the advanced tape position. -/
def popSkip (tape : ℕ → ℕ) (excl : List Coord) :
    List Coord → ℕ → Option (Coord × List Coord × ℕ)
  | [], _ => none
  | a :: as, pos =>
    let l := a :: as
    let k := tape pos % l.length
    let c := l.get ⟨k, Nat.mod_lt _ (Nat.succ_pos _)⟩
    let rest := l.eraseIdx k
    if c ∈ excl then
      match popSkip tape excl rest (pos + 1) with
      | none => some (c, [], pos + 1)
      | some r => some r
    else
      some (c, rest, pos + 1)
termination_by l _ => l.length
decreasing_by
  simp only [List.length_eraseIdx, List.length_cons]
  split
  · omega
  · rename_i hcond
    exact absurd (Nat.mod_lt _ (Nat.succ_pos _)) hcond

theorem mem_eraseIdx_of_ne_get {α : Type} {l : List α} {q : α} (hq : q ∈ l)
    {k : ℕ} (hk : k < l.length) (hqc : q ≠ l.get ⟨k, hk⟩) :
    q ∈ l.eraseIdx k := by
  rw [List.mem_eraseIdx_iff_getElem]
  obtain ⟨i, hi, hvq⟩ := List.mem_iff_getElem.mp hq
  refine ⟨i, hi, ?_, hvq⟩
  intro hik
  apply hqc
  rw [← hvq]
  subst hik
  rfl

theorem popSkip_cons_ne_none (tape : ℕ → ℕ) (excl : List Coord) :
    ∀ (n : ℕ) (l : List Coord), l.length ≤ n → l ≠ [] → ∀ pos : ℕ,
      popSkip tape excl l pos ≠ none := by
  intro n
  induction n with
  | zero =>
    intro l hl hne pos
    cases l with
    | nil => exact absurd rfl hne
    | cons a as => simp at hl
  | succ n ihn =>
    intro l hl hne pos
    cases l with
    | nil => exact absurd rfl hne
    | cons a as =>
      rw [popSkip.eq_def]
      simp only []
      by_cases hex :
          (a :: as).get ⟨tape pos % (a :: as).length, Nat.mod_lt _ (Nat.succ_pos _)⟩
            ∈ excl
      · rw [if_pos hex]
        cases hrec : popSkip tape excl
            ((a :: as).eraseIdx (tape pos % (a :: as).length)) (pos + 1) with
        | none => simp
        | some r => simp
      · rw [if_neg hex]
        simp

theorem popSkip_spec (tape : ℕ → ℕ) (excl : List Coord) :
    ∀ (n : ℕ) (l : List Coord), l.length ≤ n →
    ∀ (pos : ℕ) (c : Coord) (rest : List Coord) (p2 : ℕ),
      popSkip tape excl l pos = some (c, rest, p2) →
      c ∈ l ∧ rest.Sublist l ∧ rest.length < l.length ∧
        (rest ≠ [] → c ∉ excl) ∧
        (∀ q ∈ l, q ∈ excl ∨ q = c ∨ q ∈ rest) := by
  intro n
  induction n with
  | zero =>
    intro l hl pos c rest p2 hps
    have hnil : l = [] := List.length_eq_zero.mp (by omega)
    subst hnil
    rw [popSkip.eq_def] at hps
    exact Option.noConfusion hps
  | succ n ihn =>
    intro l hl pos c rest p2 hps
    cases l with
    | nil =>
      rw [popSkip.eq_def] at hps
      exact Option.noConfusion hps
    | cons a as =>
      rw [popSkip.eq_def] at hps
      simp only [] at hps
      have hk : tape pos % (a :: as).length < (a :: as).length :=
        Nat.mod_lt _ (Nat.succ_pos _)
      have hmem0 :
          (a :: as).get ⟨tape pos % (a :: as).length, Nat.mod_lt _ (Nat.succ_pos _)⟩
            ∈ a :: as := (a :: as).get_mem _ _
      have hsub0 :
          ((a :: as).eraseIdx (tape pos % (a :: as).length)).Sublist (a :: as) :=
        (a :: as).eraseIdx_sublist _
      have hlen0 :
          ((a :: as).eraseIdx (tape pos % (a :: as).length)).length
            < (a :: as).length := by
        rw [List.length_eraseIdx]
        split
        · simp only [List.length_cons]
          omega
        · rename_i hcond
          exact absurd (Nat.mod_lt _ (Nat.succ_pos _)) hcond
      by_cases hex :
          (a :: as).get ⟨tape pos % (a :: as).length, Nat.mod_lt _ (Nat.succ_pos _)⟩
            ∈ excl
      · rw [if_pos hex] at hps
        cases hrec : popSkip tape excl
            ((a :: as).eraseIdx (tape pos % (a :: as).length)) (pos + 1) with
        | none =>
          rw [hrec] at hps
          simp only [Option.some.injEq, Prod.mk.injEq] at hps
          obtain ⟨hc, hrest, hp⟩ := hps
          subst hc
          have hempty :
              (a :: as).eraseIdx (tape pos % (a :: as).length) = [] := by
            by_contra hne2
            exact popSkip_cons_ne_none tape excl (n + 1) _
              (by have := hlen0; omega) hne2 (pos + 1) hrec
          refine ⟨hmem0, by rw [← hrest]; exact List.nil_sublist _, ?_, ?_, ?_⟩
          · rw [← hrest]
            simp
          · intro hne
            exact absurd hrest.symm hne
          · intro q hq
            by_cases hqc :
                q = (a :: as).get
                  ⟨tape pos % (a :: as).length, Nat.mod_lt _ (Nat.succ_pos _)⟩
            · exact Or.inr (Or.inl hqc)
            · have hq2 := mem_eraseIdx_of_ne_get hq hk hqc
              rw [hempty] at hq2
              exact absurd hq2 (List.not_mem_nil q)
        | some r =>
          rw [hrec] at hps
          simp only [Option.some.injEq] at hps
          rw [hps] at hrec
          have hlenrec :
              ((a :: as).eraseIdx (tape pos % (a :: as).length)).length ≤ n := by
            have h1 := hlen0
            omega
          obtain ⟨hc, hsub, hlen, hnex, hcov⟩ := ihn _ hlenrec (pos + 1) c rest p2 hrec
          refine ⟨hsub0.mem hc, hsub.trans hsub0, ?_, hnex, ?_⟩
          · calc rest.length
                < ((a :: as).eraseIdx (tape pos % (a :: as).length)).length := hlen
              _ < (a :: as).length := hlen0
          · intro q hq
            by_cases hqc :
                q = (a :: as).get
                  ⟨tape pos % (a :: as).length, Nat.mod_lt _ (Nat.succ_pos _)⟩
            · left
              rw [hqc]
              exact hex
            · exact hcov q (mem_eraseIdx_of_ne_get hq hk hqc)
      · rw [if_neg hex] at hps
        simp only [Option.some.injEq, Prod.mk.injEq] at hps
        obtain ⟨hc, hrest, hp⟩ := hps
        subst hc
        refine ⟨hmem0, by rw [← hrest]; exact hsub0, by rw [← hrest]; exact hlen0,
          fun _ => hex, ?_⟩
        intro q hq
        by_cases hqc :
            q = (a :: as).get
              ⟨tape pos % (a :: as).length, Nat.mod_lt _ (Nat.succ_pos _)⟩
        · exact Or.inr (Or.inl hqc)
        · right; right
          rw [← hrest]
          exact mem_eraseIdx_of_ne_get hq hk hqc

theorem get_not_mem_eraseIdx {α : Type} {l : List α} (hnd : l.Nodup) {k : ℕ}
    (hk : k < l.length) : l.get ⟨k, hk⟩ ∉ l.eraseIdx k := by
  intro hmem
  rw [List.mem_eraseIdx_iff_getElem] at hmem
  obtain ⟨i, hi, hik, hv⟩ := hmem
  apply hik
  have hv2 : l.get ⟨i, hi⟩ = l.get ⟨k, hk⟩ := hv
  have := (List.Nodup.get_inj_iff hnd).mp hv2
  exact congrArg Fin.val this

theorem popSkip_not_mem_rest (tape : ℕ → ℕ) (excl : List Coord) :
    ∀ (n : ℕ) (l : List Coord), l.length ≤ n → l.Nodup →
    ∀ (pos : ℕ) (c : Coord) (rest : List Coord) (p2 : ℕ),
      popSkip tape excl l pos = some (c, rest, p2) → c ∉ rest := by
  intro n
  induction n with
  | zero =>
    intro l hl hnd pos c rest p2 hps
    have hnil : l = [] := List.length_eq_zero.mp (by omega)
    subst hnil
    rw [popSkip.eq_def] at hps
    exact Option.noConfusion hps
  | succ n ihn =>
    intro l hl hnd pos c rest p2 hps
    cases l with
    | nil =>
      rw [popSkip.eq_def] at hps
      exact Option.noConfusion hps
    | cons a as =>
      rw [popSkip.eq_def] at hps
      simp only [] at hps
      have hk : tape pos % (a :: as).length < (a :: as).length :=
        Nat.mod_lt _ (Nat.succ_pos _)
      by_cases hex :
          (a :: as).get ⟨tape pos % (a :: as).length, Nat.mod_lt _ (Nat.succ_pos _)⟩
            ∈ excl
      · rw [if_pos hex] at hps
        cases hrec : popSkip tape excl
            ((a :: as).eraseIdx (tape pos % (a :: as).length)) (pos + 1) with
        | none =>
          rw [hrec] at hps
          simp only [Option.some.injEq, Prod.mk.injEq] at hps
          obtain ⟨hc, hrest, hp⟩ := hps
          rw [← hrest]
          exact List.not_mem_nil c
        | some r =>
          rw [hrec] at hps
          simp only [Option.some.injEq] at hps
          rw [hps] at hrec
          have hlen0 :
              ((a :: as).eraseIdx (tape pos % (a :: as).length)).length
                < (a :: as).length := by
            rw [List.length_eraseIdx]
            split
            · simp only [List.length_cons]
              omega
            · rename_i hcond
              exact absurd (Nat.mod_lt _ (Nat.succ_pos _)) hcond
          exact ihn _ (by omega) (((a :: as).eraseIdx_sublist _).nodup hnd)
            (pos + 1) c rest p2 hrec
      · rw [if_neg hex] at hps
        simp only [Option.some.injEq, Prod.mk.injEq] at hps
        obtain ⟨hc, hrest, hp⟩ := hps
        rw [← hc, ← hrest]
        exact get_not_mem_eraseIdx hnd hk

/-- `generator_depth = (5, 12)` from the bottom of the source file. -/
def generator_depth : ℕ × ℕ := (5, 12)

/-- Result of one `remove_numbers` invocation.  `result` is `some (some r)`
for a returned grid, `some none` for Python `None` (bare `return` or
falling off the end), and `none` when an exception from `unique`
propagates.  `tested` records the coordinates this invocation tentatively
zeroed and submitted to `unique` (a ghost trace used by the theorems);
`cutoff` records whether this invocation returned through the
`len(excluded_nums) > self.clues` early exit. -/
structure RNOut where
  result : Option (Option Grid)
  pos : ℕ
  tested : List Coord
  cutoff : Bool

/-!  `Generator.remove_numbers(board, excluded)`:

    sudoku = board.copy(); excluded_nums = excluded.copy()
    if np.count_nonzero(sudoku) > self.clues:
        depth = 12 if np.count_nonzero(sudoku) == self.clues + 1 else 5
        indices = <coordinates of non-zero cells>
        while indices:
            <popSkip: pop at random, skipping blacklisted coordinates>
            if indices:
                n = sudoku[y][x]; sudoku[y][x] = 0
                if self.master.solver.unique(sudoku, depth):
                    next_layer = self.remove_numbers(sudoku, excluded_nums)
                    if next_layer is not None: return next_layer
                excluded_nums.append((y, x))
                if len(excluded_nums) > self.clues: return
                sudoku[y][x] = n
    else:
        return sudoku

The working board equals `g0` again at the top of every loop iteration
(the tested cell is always restored before looping), so the loop carries
`g0` unchanged and zeroes the drawn cell afresh each iteration.  `hind`
records that every listed coordinate is non-zero in `g0`; it exists to
justify termination. -/
mutual

def removeNumbers (tape : ℕ → ℕ) (clues : ℕ) (g : Grid) (excl : List Coord)
    (pos : ℕ) : RNOut :=
  if clues < nonZeroCount g then
    removeLoop tape clues
      (if nonZeroCount g = clues + 1 then generator_depth.2 else generator_depth.1)
      g excl (nonzeroIndices g) pos [] (nonzeroIndices_spec g)
  else ⟨some (some g), pos, [], false⟩
termination_by (nonZeroCount g, 100)
decreasing_by
  apply Prod.Lex.right
  have := nonzeroIndices_length_le g
  omega

def removeLoop (tape : ℕ → ℕ) (clues depth : ℕ) (g0 : Grid) (excl : List Coord)
    (indices : List Coord) (pos : ℕ) (tested : List Coord)
    (hind : ∀ c ∈ indices, g0 c.1 c.2 ≠ 0) : RNOut :=
  match hps : popSkip tape excl indices pos with
  | none => ⟨some none, pos, tested, false⟩
  | some (c, rest, pos1) =>
    match rest with
    | [] => ⟨some none, pos1, tested, false⟩
    | r1 :: rs =>
      match unique tape (update g0 c.1 c.2 0) depth pos1 with
      | (none, pos2) => ⟨none, pos2, tested ++ [c], false⟩
      | (some b, pos2) =>
        if b then
          match removeNumbers tape clues (update g0 c.1 c.2 0) excl pos2 with
          | ⟨some (some r), posn, _, _⟩ => ⟨some (some r), posn, tested ++ [c], false⟩
          | ⟨some none, posn, _, _⟩ =>
            if clues < (excl ++ [c]).length then
              ⟨some none, posn, tested ++ [c], true⟩
            else
              removeLoop tape clues depth g0 (excl ++ [c]) (r1 :: rs) posn (tested ++ [c])
                (fun q hq => hind q
                  (((popSkip_spec tape excl indices.length indices le_rfl
                      pos c (r1 :: rs) pos1 hps).2.1).mem hq))
          | ⟨none, posn, _, _⟩ => ⟨none, posn, tested ++ [c], false⟩
        else
          if clues < (excl ++ [c]).length then
            ⟨some none, pos2, tested ++ [c], true⟩
          else
            removeLoop tape clues depth g0 (excl ++ [c]) (r1 :: rs) pos2 (tested ++ [c])
              (fun q hq => hind q
                (((popSkip_spec tape excl indices.length indices le_rfl
                    pos c (r1 :: rs) pos1 hps).2.1).mem hq))
termination_by (nonZeroCount g0, indices.length)
decreasing_by
  · apply Prod.Lex.left
    exact nonZeroCount_update_lt
      (hind c (popSkip_spec tape excl indices.length indices le_rfl
        pos c (r1 :: rs) pos1 hps).1)
  · apply Prod.Lex.right
    exact (popSkip_spec tape excl indices.length indices le_rfl
      pos c (r1 :: rs) pos1 hps).2.2.1
  · apply Prod.Lex.right
    exact (popSkip_spec tape excl indices.length indices le_rfl
      pos c (r1 :: rs) pos1 hps).2.2.1

end

/-- The all-empty board `np.zeros((9, 9), int)`. -/
def zeroGrid : Grid := fun _ _ => 0

/-- The clue-target draw of `Generator.generate`: three independent `if`
statements on the difficulty string (mutually exclusive since the strings
differ), each setting `self.clues = random.randint(lo, hi)`; an
unrecognized difficulty leaves the stored field untouched and consumes no
randomness. -/
def drawClues (tape : ℕ → ℕ) (difficulty : String) (stored pos : ℕ) : ℕ × ℕ :=
  if difficulty = "easy" then (40 + tape pos % 11, pos + 1)
  else if difficulty = "medium" then (32 + tape pos % 9, pos + 1)
  else if difficulty = "hard" then (25 + tape pos % 8, pos + 1)
  else (stored, pos)

/-- The body of `generate` after the clue draw: solve the empty board to get
a seed solution, then `remove_numbers`.  A failed seed solve (impossible in
practice, but it would make `remove_numbers(None)` raise) and a `None` or
raising `remove_numbers` all leave no puzzle, modelled as `none`. -/
def generatePipeline (tape : ℕ → ℕ) (clues pos : ℕ) : Option Grid × ℕ :=
  match solveAux tape zeroGrid pos with
  | (none, p) => (none, p)
  | (some b, p) =>
    match removeNumbers tape clues b [] p with
    | ⟨some r, pf, _, _⟩ => (r, pf)
    | ⟨none, pf, _, _⟩ => (none, pf)

/-- `Generator.generate(difficulty)`: returns the puzzle stored into
`master.puzzle`, the final `self.clues` field, and the final tape
position. -/
def generate (tape : ℕ → ℕ) (difficulty : String) (stored pos : ℕ) :
    Option Grid × ℕ × ℕ :=
  let cp := drawClues tape difficulty stored pos
  let bp := generatePipeline tape cp.1 cp.2
  (bp.1, cp.1, bp.2)

/-- The produced puzzle (when one is produced) has a clue count in
`[lo, hi]`. -/
def clueCountOK (r : Option Grid) (lo hi : ℕ) : Bool :=
  match r with
  | none => true
  | some p => decide (lo ≤ nonZeroCount p) && decide (nonZeroCount p ≤ hi)

theorem nonZeroCount_eq_81 {g : Grid} (h : ∀ y x : Fin 9, g y x ≠ 0) :
    nonZeroCount g = 81 := by
  unfold nonZeroCount
  have hf : (Finset.univ.filter fun q : Fin 9 × Fin 9 => g q.1 q.2 ≠ 0)
      = Finset.univ := by
    apply Finset.filter_true_of_mem
    intro q _
    exact h q.1 q.2
  rw [hf]
  simp

/-!  Unfolding lemmas for `removeLoop` (its defining match is dependent, so
these are proved once and used everywhere). -/

theorem popSkip_nil (tape : ℕ → ℕ) (excl : List Coord) (pos : ℕ) :
    popSkip tape excl [] pos = none := by
  rw [popSkip.eq_def]

theorem removeLoop_none (tape : ℕ → ℕ) (clues depth : ℕ) (g0 : Grid)
    (excl indices : List Coord) (pos : ℕ) (tested : List Coord)
    (hind : ∀ c ∈ indices, g0 c.1 c.2 ≠ 0)
    (hps : popSkip tape excl indices pos = none) :
    removeLoop tape clues depth g0 excl indices pos tested hind
      = ⟨some none, pos, tested, false⟩ := by
  conv_lhs => rw [removeLoop.eq_def]
  split
  · rfl
  · rename_i c2 rest2 pos12 heq
    rw [heq] at hps
    exact Option.noConfusion hps

theorem removeLoop_drop (tape : ℕ → ℕ) (clues depth : ℕ) (g0 : Grid)
    (excl indices : List Coord) (pos : ℕ) (tested : List Coord)
    (hind : ∀ c ∈ indices, g0 c.1 c.2 ≠ 0) {c : Coord} {pos1 : ℕ}
    (hps : popSkip tape excl indices pos = some (c, [], pos1)) :
    removeLoop tape clues depth g0 excl indices pos tested hind
      = ⟨some none, pos1, tested, false⟩ := by
  conv_lhs => rw [removeLoop.eq_def]
  split
  · rename_i heq
    rw [heq] at hps
    exact Option.noConfusion hps
  · rename_i c2 rest2 pos12 heq
    rw [heq] at hps
    simp only [Option.some.injEq, Prod.mk.injEq] at hps
    obtain ⟨hc, hrest, hpos⟩ := hps
    subst hc
    subst hpos
    cases rest2 with
    | nil => rfl
    | cons z zs => exact absurd hrest (by simp)

theorem removeLoop_cons (tape : ℕ → ℕ) (clues depth : ℕ) (g0 : Grid)
    (excl indices : List Coord) (pos : ℕ) (tested : List Coord)
    (hind : ∀ c ∈ indices, g0 c.1 c.2 ≠ 0) {c : Coord} {r1 : Coord}
    {rs : List Coord} {pos1 : ℕ}
    (hps : popSkip tape excl indices pos = some (c, r1 :: rs, pos1))
    (hind2 : ∀ q ∈ r1 :: rs, g0 q.1 q.2 ≠ 0) :
    removeLoop tape clues depth g0 excl indices pos tested hind
      = match unique tape (update g0 c.1 c.2 0) depth pos1 with
        | (none, pos2) => ⟨none, pos2, tested ++ [c], false⟩
        | (some b, pos2) =>
          if b then
            match removeNumbers tape clues (update g0 c.1 c.2 0) excl pos2 with
            | ⟨some (some r), posn, _, _⟩ =>
              ⟨some (some r), posn, tested ++ [c], false⟩
            | ⟨some none, posn, _, _⟩ =>
              if clues < (excl ++ [c]).length then
                ⟨some none, posn, tested ++ [c], true⟩
              else
                removeLoop tape clues depth g0 (excl ++ [c]) (r1 :: rs) posn
                  (tested ++ [c]) hind2
            | ⟨none, posn, _, _⟩ => ⟨none, posn, tested ++ [c], false⟩
          else
            if clues < (excl ++ [c]).length then
              ⟨some none, pos2, tested ++ [c], true⟩
            else
              removeLoop tape clues depth g0 (excl ++ [c]) (r1 :: rs) pos2
                (tested ++ [c]) hind2 := by
  conv_lhs => rw [removeLoop.eq_def]
  split
  · rename_i heq
    rw [heq] at hps
    exact Option.noConfusion hps
  · rename_i c2 rest2 pos12 heq
    rw [heq] at hps
    simp only [Option.some.injEq, Prod.mk.injEq] at hps
    obtain ⟨hc, hrest, hpos⟩ := hps
    subst hc
    subst hpos
    cases rest2 with
    | nil => exact absurd hrest.symm (by simp)
    | cons z zs =>
      simp only [List.cons.injEq] at hrest
      obtain ⟨hz, hzs⟩ := hrest
      subst hz
      subst hzs
      rfl

theorem removeNumbers_below (tape : ℕ → ℕ) (clues : ℕ) (g : Grid)
    (excl : List Coord) (pos : ℕ) (h : ¬ clues < nonZeroCount g) :
    removeNumbers tape clues g excl pos = ⟨some (some g), pos, [], false⟩ := by
  rw [removeNumbers.eq_def, if_neg h]

theorem removeNumbers_above (tape : ℕ → ℕ) (clues : ℕ) (g : Grid)
    (excl : List Coord) (pos : ℕ) (h : clues < nonZeroCount g) :
    removeNumbers tape clues g excl pos
      = removeLoop tape clues
          (if nonZeroCount g = clues + 1 then generator_depth.2
            else generator_depth.1)
          g excl (nonzeroIndices g) pos [] (nonzeroIndices_spec g) := by
  rw [removeNumbers.eq_def, if_pos h]

/-- When the filled count exceeds the target, the loop only hands a grid
back by propagating a nested `remove_numbers` success, which (inductively)
carries exactly `clues` non-zero cells. -/
theorem removeLoop_count (tape : ℕ → ℕ) (clues depth : ℕ) :
    ∀ (L : ℕ) (indices : List Coord), indices.length ≤ L →
    ∀ (g0 : Grid) (excl : List Coord) (pos : ℕ) (tested : List Coord)
      (hind : ∀ c ∈ indices, g0 c.1 c.2 ≠ 0),
      clues < nonZeroCount g0 →
      (∀ gp : Grid, nonZeroCount gp < nonZeroCount g0 →
        ∀ (excl2 : List Coord) (pos2 : ℕ) (r : Grid),
          (removeNumbers tape clues gp excl2 pos2).result = some (some r) →
          nonZeroCount r = clues ∨ (r = gp ∧ nonZeroCount gp ≤ clues)) →
      ∀ r : Grid,
        (removeLoop tape clues depth g0 excl indices pos tested hind).result
          = some (some r) →
        nonZeroCount r = clues := by
  intro L
  induction L with
  | zero =>
    intro indices hlen g0 excl pos tested hind hclues hIH r hres
    have hnil : indices = [] := List.length_eq_zero.mp (by omega)
    subst hnil
    rw [removeLoop_none tape clues depth g0 excl [] pos tested hind
      (popSkip_nil tape excl pos)] at hres
    simp at hres
  | succ L ihL =>
    intro indices hlen g0 excl pos tested hind hclues hIH r hres
    cases hps : popSkip tape excl indices pos with
    | none =>
      rw [removeLoop_none tape clues depth g0 excl indices pos tested hind hps]
        at hres
      simp at hres
    | some v =>
      obtain ⟨c, rest, pos1⟩ := v
      cases hrest : rest with
      | nil =>
        rw [hrest] at hps
        rw [removeLoop_drop tape clues depth g0 excl indices pos tested hind hps]
          at hres
        simp at hres
      | cons r1 rs =>
        rw [hrest] at hps
        have hspec := popSkip_spec tape excl indices.length indices le_rfl
          pos c (r1 :: rs) pos1 hps
        have hind2 : ∀ q ∈ r1 :: rs, g0 q.1 q.2 ≠ 0 :=
          fun q hq => hind q (hspec.2.1.mem hq)
        rw [removeLoop_cons tape clues depth g0 excl indices pos tested hind
          hps hind2] at hres
        have hcne : g0 c.1 c.2 ≠ 0 := hind c hspec.1
        have hcount : nonZeroCount (update g0 c.1 c.2 0) < nonZeroCount g0 :=
          nonZeroCount_update_lt hcne
        have hlen2 : (r1 :: rs).length ≤ L := by
          have := hspec.2.2.1
          omega
        cases hu : unique tape (update g0 c.1 c.2 0) depth pos1 with
        | mk ub pos2 =>
          rw [hu] at hres
          cases ub with
          | none => simp at hres
          | some b =>
            cases b with
            | false =>
              simp only [Bool.false_eq_true, if_neg] at hres
              by_cases hcut : clues < (excl ++ [c]).length
              · rw [if_pos hcut] at hres
                simp at hres
              · rw [if_neg hcut] at hres
                exact ihL (r1 :: rs) hlen2 g0 (excl ++ [c]) pos2 (tested ++ [c])
                  hind2 hclues hIH r hres
            | true =>
              simp only [if_pos] at hres
              cases hrn : removeNumbers tape clues (update g0 c.1 c.2 0) excl pos2
                with
              | mk res posn t co =>
                rw [hrn] at hres
                cases res with
                | none => simp at hres
                | some ro =>
                  cases ro with
                  | none =>
                    dsimp only at hres
                    by_cases hcut : clues < (excl ++ [c]).length
                    · rw [if_pos hcut] at hres
                      simp at hres
                    · rw [if_neg hcut] at hres
                      exact ihL (r1 :: rs) hlen2 g0 (excl ++ [c]) posn
                        (tested ++ [c]) hind2 hclues hIH r hres
                  | some r2 =>
                    simp only [RNOut.mk.injEq, Option.some.injEq] at hres
                    have hr2 : r2 = r := hres
                    subst hr2
                    have hres2 :
                        (removeNumbers tape clues (update g0 c.1 c.2 0) excl
                          pos2).result = some (some r2) := by
                      rw [hrn]
                    rcases hIH _ hcount excl pos2 r2 hres2 with h | ⟨heq, hle⟩
                    · exact h
                    · rw [heq]
                      rw [nonZeroCount_update_zero hcne] at hle ⊢
                      have := nonZeroCount_pos hcne
                      omega

/-- `remove_numbers` hands back either the input grid unchanged (when its
filled count is already at or below the target) or a grid with exactly
`clues` non-zero cells. -/
theorem removeNumbers_count (tape : ℕ → ℕ) (clues : ℕ) :
    ∀ (N : ℕ) (g : Grid), nonZeroCount g ≤ N →
    ∀ (excl : List Coord) (pos : ℕ) (r : Grid),
      (removeNumbers tape clues g excl pos).result = some (some r) →
      nonZeroCount r = clues ∨ (r = g ∧ nonZeroCount g ≤ clues) := by
  intro N
  induction N with
  | zero =>
    intro g hg excl pos r hres
    have hle : ¬ clues < nonZeroCount g := by omega
    rw [removeNumbers_below tape clues g excl pos hle] at hres
    simp only [Option.some.injEq] at hres
    exact Or.inr ⟨hres.symm, by omega⟩
  | succ N ihN =>
    intro g hg excl pos r hres
    by_cases hcl : clues < nonZeroCount g
    · rw [removeNumbers_above tape clues g excl pos hcl] at hres
      left
      refine removeLoop_count tape clues _ (nonzeroIndices g).length
        (nonzeroIndices g) le_rfl g excl pos [] (nonzeroIndices_spec g) hcl
        ?_ r hres
      intro gp hgp excl2 pos2 r2 hres2
      exact ihN gp (by omega) excl2 pos2 r2 hres2
    · rw [removeNumbers_below tape clues g excl pos hcl] at hres
      simp only [Option.some.injEq] at hres
      exact Or.inr ⟨hres.symm, by omega⟩

/-- The `tested` trace only grows: whatever trace the loop starts with is a
prefix of the trace it reports. -/
theorem removeLoop_tested_mono (tape : ℕ → ℕ) (clues depth : ℕ) :
    ∀ (L : ℕ) (indices : List Coord), indices.length ≤ L →
    ∀ (g0 : Grid) (excl : List Coord) (pos : ℕ) (tested : List Coord)
      (hind : ∀ c ∈ indices, g0 c.1 c.2 ≠ 0),
      ∃ suffix : List Coord,
        (removeLoop tape clues depth g0 excl indices pos tested hind).tested
          = tested ++ suffix := by
  intro L
  induction L with
  | zero =>
    intro indices hlen g0 excl pos tested hind
    have hnil : indices = [] := List.length_eq_zero.mp (by omega)
    subst hnil
    rw [removeLoop_none tape clues depth g0 excl [] pos tested hind
      (popSkip_nil tape excl pos)]
    exact ⟨[], by simp⟩
  | succ L ihL =>
    intro indices hlen g0 excl pos tested hind
    cases hps : popSkip tape excl indices pos with
    | none =>
      rw [removeLoop_none tape clues depth g0 excl indices pos tested hind hps]
      exact ⟨[], by simp⟩
    | some v =>
      obtain ⟨c, rest, pos1⟩ := v
      cases hrest : rest with
      | nil =>
        rw [hrest] at hps
        rw [removeLoop_drop tape clues depth g0 excl indices pos tested hind hps]
        exact ⟨[], by simp⟩
      | cons r1 rs =>
        rw [hrest] at hps
        have hspec := popSkip_spec tape excl indices.length indices le_rfl
          pos c (r1 :: rs) pos1 hps
        have hind2 : ∀ q ∈ r1 :: rs, g0 q.1 q.2 ≠ 0 :=
          fun q hq => hind q (hspec.2.1.mem hq)
        have hlen2 : (r1 :: rs).length ≤ L := by
          have := hspec.2.2.1
          omega
        rw [removeLoop_cons tape clues depth g0 excl indices pos tested hind
          hps hind2]
        cases hu : unique tape (update g0 c.1 c.2 0) depth pos1 with
        | mk ub pos2 =>
          cases ub with
          | none => exact ⟨[c], rfl⟩
          | some b =>
            cases b with
            | false =>
              dsimp only
              rw [if_neg Bool.false_ne_true]
              by_cases hcut : clues < (excl ++ [c]).length
              · rw [if_pos hcut]
                exact ⟨[c], rfl⟩
              · rw [if_neg hcut]
                obtain ⟨suf, hsuf⟩ := ihL (r1 :: rs) hlen2 g0 (excl ++ [c]) pos2
                  (tested ++ [c]) hind2
                exact ⟨[c] ++ suf, by rw [hsuf, List.append_assoc]⟩
            | true =>
              dsimp only
              rw [if_pos rfl]
              cases hrn : removeNumbers tape clues (update g0 c.1 c.2 0) excl pos2
                with
              | mk res posn t co =>
                cases res with
                | none => exact ⟨[c], rfl⟩
                | some ro =>
                  cases ro with
                  | none =>
                    dsimp only
                    by_cases hcut : clues < (excl ++ [c]).length
                    · rw [if_pos hcut]
                      exact ⟨[c], rfl⟩
                    · rw [if_neg hcut]
                      obtain ⟨suf, hsuf⟩ := ihL (r1 :: rs) hlen2 g0 (excl ++ [c])
                        posn (tested ++ [c]) hind2
                      exact ⟨[c] ++ suf, by rw [hsuf, List.append_assoc]⟩
                  | some r2 => exact ⟨[c], rfl⟩

/-- Candidate coverage on the exhaustion path: when the loop returns `None`
without tripping the cutoff, every coordinate it was given that is not
blacklisted has been tested, except possibly a single final drawn
coordinate, which is discarded untested. -/
theorem removeLoop_coverage (tape : ℕ → ℕ) (clues depth : ℕ) :
    ∀ (L : ℕ) (indices : List Coord), indices.length ≤ L → indices.Nodup →
    ∀ (g0 : Grid) (excl : List Coord) (pos : ℕ) (tested : List Coord)
      (hind : ∀ c ∈ indices, g0 c.1 c.2 ≠ 0),
      (removeLoop tape clues depth g0 excl indices pos tested hind).result
          = some none →
      (removeLoop tape clues depth g0 excl indices pos tested hind).cutoff
          = false →
      ∃ d : Coord, ∀ q ∈ indices, q ∉ excl →
        q ∈ (removeLoop tape clues depth g0 excl indices pos tested hind).tested
          ∨ q = d := by
  intro L
  induction L with
  | zero =>
    intro indices hlen hnd g0 excl pos tested hind hres hcut
    have hnil : indices = [] := List.length_eq_zero.mp (by omega)
    subst hnil
    exact ⟨(0, 0), fun q hq => absurd hq (List.not_mem_nil q)⟩
  | succ L ihL =>
    intro indices hlen hnd g0 excl pos tested hind hres hcut
    cases hps : popSkip tape excl indices pos with
    | none =>
      have hnil : indices = [] := by
        cases hni : indices with
        | nil => rfl
        | cons i1 is =>
          rw [hni] at hps
          exact absurd hps (popSkip_cons_ne_none tape excl (i1 :: is).length
            (i1 :: is) le_rfl (by simp) pos)
      subst hnil
      exact ⟨(0, 0), fun q hq => absurd hq (List.not_mem_nil q)⟩
    | some v =>
      obtain ⟨c, rest, pos1⟩ := v
      cases hrest : rest with
      | nil =>
        rw [hrest] at hps
        have hspec := popSkip_spec tape excl indices.length indices le_rfl
          pos c [] pos1 hps
        rw [removeLoop_drop tape clues depth g0 excl indices pos tested hind hps]
          at hres hcut ⊢
        refine ⟨c, fun q hq hqe => ?_⟩
        rcases hspec.2.2.2.2 q hq with h | h | h
        · exact absurd h hqe
        · exact Or.inr h
        · exact absurd h (List.not_mem_nil q)
      | cons r1 rs =>
        rw [hrest] at hps
        have hspec := popSkip_spec tape excl indices.length indices le_rfl
          pos c (r1 :: rs) pos1 hps
        have hind2 : ∀ q ∈ r1 :: rs, g0 q.1 q.2 ≠ 0 :=
          fun q hq => hind q (hspec.2.1.mem hq)
        have hlen2 : (r1 :: rs).length ≤ L := by
          have := hspec.2.2.1
          omega
        have hnd2 : (r1 :: rs).Nodup := hspec.2.1.nodup hnd
        have hcnotr : c ∉ r1 :: rs :=
          popSkip_not_mem_rest tape excl indices.length indices le_rfl hnd
            pos c (r1 :: rs) pos1 hps
        rw [removeLoop_cons tape clues depth g0 excl indices pos tested hind
          hps hind2] at hres hcut ⊢
        cases hu : unique tape (update g0 c.1 c.2 0) depth pos1 with
        | mk ub pos2 =>
          rw [hu] at hres hcut
          cases ub with
          | none => simp at hres
          | some b =>
            cases b with
            | false =>
              dsimp only at hres hcut ⊢
              rw [if_neg Bool.false_ne_true] at hres hcut ⊢
              by_cases hco : clues < (excl ++ [c]).length
              · rw [if_pos hco] at hcut
                simp at hcut
              · rw [if_neg hco] at hres hcut ⊢
                obtain ⟨d, hd⟩ := ihL (r1 :: rs) hlen2 hnd2 g0 (excl ++ [c]) pos2
                  (tested ++ [c]) hind2 hres hcut
                refine ⟨d, fun q hq hqe => ?_⟩
                rcases hspec.2.2.2.2 q hq with h | h | h
                · exact absurd h hqe
                · left
                  obtain ⟨suf, hsuf⟩ := removeLoop_tested_mono tape clues depth
                    (r1 :: rs).length (r1 :: rs) le_rfl g0 (excl ++ [c]) pos2
                    (tested ++ [c]) hind2
                  rw [h, hsuf]
                  simp
                · have hqe2 : q ∉ excl ++ [c] := by
                    rw [List.mem_append]
                    rintro (hx | hx)
                    · exact hqe hx
                    · rw [List.mem_singleton] at hx
                      exact hcnotr (hx ▸ h)
                  exact hd q h hqe2
            | true =>
              dsimp only at hres hcut ⊢
              rw [if_pos rfl] at hres hcut ⊢
              cases hrn : removeNumbers tape clues (update g0 c.1 c.2 0) excl pos2
                with
              | mk res posn t co =>
                rw [hrn] at hres hcut
                cases res with
                | none => simp at hres
                | some ro =>
                  cases ro with
                  | some r2 => simp at hres
                  | none =>
                    dsimp only at hres hcut ⊢
                    by_cases hco : clues < (excl ++ [c]).length
                    · rw [if_pos hco] at hcut
                      simp at hcut
                    · rw [if_neg hco] at hres hcut ⊢
                      obtain ⟨d, hd⟩ := ihL (r1 :: rs) hlen2 hnd2 g0 (excl ++ [c])
                        posn (tested ++ [c]) hind2 hres hcut
                      refine ⟨d, fun q hq hqe => ?_⟩
                      rcases hspec.2.2.2.2 q hq with h | h | h
                      · exact absurd h hqe
                      · left
                        obtain ⟨suf, hsuf⟩ := removeLoop_tested_mono tape clues
                          depth (r1 :: rs).length (r1 :: rs) le_rfl g0
                          (excl ++ [c]) posn (tested ++ [c]) hind2
                        rw [h, hsuf]
                        simp
                      · have hqe2 : q ∉ excl ++ [c] := by
                          rw [List.mem_append]
                          rintro (hx | hx)
                          · exact hqe hx
                          · rw [List.mem_singleton] at hx
                            exact hcnotr (hx ▸ h)
                        exact hd q h hqe2

/-!  Concrete boards used by the claim witnesses and counterexamples. -/

/-- The canonical solved grid of spec §8. -/
def gSolved : Grid :=
  ![![5, 3, 4, 6, 7, 8, 9, 1, 2],
    ![6, 7, 2, 1, 9, 5, 3, 4, 8],
    ![1, 9, 8, 3, 4, 2, 5, 6, 7],
    ![8, 5, 9, 7, 6, 1, 4, 2, 3],
    ![4, 2, 6, 8, 5, 3, 7, 9, 1],
    ![7, 1, 3, 9, 2, 4, 8, 5, 6],
    ![9, 6, 1, 5, 3, 7, 2, 8, 4],
    ![2, 8, 7, 4, 1, 9, 6, 3, 5],
    ![3, 4, 5, 2, 8, 6, 1, 7, 9]]

/-- A fully populated board every cell of which is 1: values lie in 0-9 but
the validity invariant is massively violated. -/
def gOnes : Grid := fun _ _ => 1

/-- A board with a single clue at `(0, 0)`. -/
def gSingle : Grid := fun y x => if y.val = 0 ∧ x.val = 0 then 5 else 0

/-- The canonical solved grid with the out-of-range value 10 written into
cell `(0, 0)`. -/
def gBad : Grid := update gSolved 0 0 10

set_option maxRecDepth 40000 in
theorem gSolved_valid : ValidGrid gSolved := by decide

theorem gSolved_inRange : InRange gSolved := by decide

theorem gSolved_full : ∀ y x : Fin 9, gSolved y x ≠ 0 := by decide

set_option maxRecDepth 40000 in
theorem gOnes_not_valid : ¬ ValidGrid gOnes := by decide

theorem gOnes_full : ∀ y x : Fin 9, gOnes y x ≠ 0 := by decide

theorem gBad_full : ∀ y x : Fin 9, gBad y x ≠ 0 := by decide

theorem gSingle_count : nonZeroCount gSingle = 1 := by decide

theorem gSingle_indices : nonzeroIndices gSingle = [(0, 0)] := by decide

/-- The single-clue board makes `remove_numbers` (target 0) draw its only
candidate, see the list run empty, and return `None` without ever testing
the candidate. -/
theorem removeNumbers_gSingle :
    removeNumbers (fun _ => 0) 0 gSingle [] 0 = ⟨some none, 1, [], false⟩ := by
  have hps : popSkip (fun _ => 0) [] [((0, 0) : Coord)] 0
      = some ((0, 0), [], 1) := by
    rw [popSkip.eq_def]
    simp
  have hps2 : popSkip (fun _ => 0) [] (nonzeroIndices gSingle) 0
      = some ((0, 0), [], 1) := by
    rw [gSingle_indices]
    exact hps
  rw [removeNumbers_above (fun _ => 0) 0 gSingle [] 0
    (by rw [gSingle_count]; norm_num)]
  exact removeLoop_drop (fun _ => 0) 0 _ gSingle [] (nonzeroIndices gSingle) 0 []
    (nonzeroIndices_spec gSingle) hps2

theorem zeroGrid_inRange : InRange zeroGrid := fun _ _ => by norm_num [zeroGrid]

theorem zeroGrid_valid : ValidGrid zeroGrid := by
  intro p q _ hp _
  exact absurd rfl hp

/-- Any puzzle the pipeline actually produces carries exactly the drawn
number of clues (the seed solution always has 81 non-zero cells, strictly
above every drawable target). -/
theorem generatePipeline_count (tape : ℕ → ℕ) (clues pos : ℕ)
    (hc : clues ≤ 80) {p : Grid}
    (hp : (generatePipeline tape clues pos).1 = some p) :
    nonZeroCount p = clues := by
  unfold generatePipeline at hp
  cases hsa : solveAux tape zeroGrid pos with
  | mk ob p2 =>
    rw [hsa] at hp
    cases ob with
    | none => simp at hp
    | some b =>
      dsimp only at hp
      have hb := solve_sound tape (zerosCount zeroGrid) zeroGrid le_rfl
        zeroGrid_inRange zeroGrid_valid pos b p2 hsa
      have hb81 : nonZeroCount b = 81 :=
        nonZeroCount_eq_81 fun y x => by
          have := (hb.2.2 y x).1
          omega
      cases hrn : removeNumbers tape clues b [] p2 with
      | mk res posn t co =>
        rw [hrn] at hp
        cases res with
        | none => simp at hp
        | some ro =>
          dsimp only at hp
          have hres : (removeNumbers tape clues b [] p2).result = some (some p) := by
            rw [hrn, hp]
          rcases removeNumbers_count tape clues (nonZeroCount b) b le_rfl [] p2 p
            hres with h | ⟨_, hle⟩
          · exact h
          · rw [hb81] at hle
            omega

theorem clueCountOK_of (tape : ℕ → ℕ) (pos clues lo hi : ℕ) (hlo : lo ≤ clues)
    (hhi : clues ≤ hi) (h80 : clues ≤ 80) :
    clueCountOK (generatePipeline tape clues pos).1 lo hi = true := by
  cases hg : (generatePipeline tape clues pos).1 with
  | none => rfl
  | some p =>
    have hcp := generatePipeline_count tape clues pos h80 hg
    simp only [clueCountOK, hcp, Bool.and_eq_true, decide_eq_true_eq]
    omega

/-!  Claim theorems. -/

/-- C1 (counterexample): on the all-ones grid — a 9x9 grid with values in
0-9 on which `solve` succeeds — the returned grid is the input itself, so
every input cell is preserved and the output is fully populated with 1-9,
yet the output violates the validity invariant.  The claim as stated is
therefore false: solver soundness fails without a validity assumption on
the input clues. -/
theorem C1_counterexample :
    solveAux (fun _ => 0) gOnes 0 = (some gOnes, 0) ∧ ¬ ValidGrid gOnes :=
  ⟨solve_full gOnes_full (fun _ => 0) 0, gOnes_not_valid⟩

/-- C1 (amended): for every 9x9 input grid with values in 0-9 whose
non-zero cells satisfy the validity invariant, whenever `solve` returns a
grid, every non-zero cell of the input holds the same value in the
returned grid, and the returned grid is fully populated with values 1-9
and satisfies the full-grid validity invariant. -/
theorem C1_solver_soundness (tape : ℕ → ℕ) (g : Grid) (pos : ℕ) (s : Grid)
    (posf : ℕ) (hr : InRange g) (hv : ValidGrid g)
    (hs : solveAux tape g pos = (some s, posf)) :
    (∀ y x : Fin 9, g y x ≠ 0 → s y x = g y x) ∧
      (∀ y x : Fin 9, 1 ≤ s y x ∧ s y x ≤ 9) ∧ ValidGrid s := by
  obtain ⟨hk, hvs, hf⟩ := solve_sound tape (zerosCount g) g le_rfl hr hv pos s
    posf hs
  exact ⟨hk, hf, hvs⟩

/-- C1 (witness): the amended soundness theorem applied to the canonical
solved grid, for which `solve` succeeds immediately. -/
theorem C1_witness :
    InRange gSolved ∧ ValidGrid gSolved ∧
      ((∀ y x : Fin 9, gSolved y x ≠ 0 → gSolved y x = gSolved y x) ∧
        (∀ y x : Fin 9, 1 ≤ gSolved y x ∧ gSolved y x ≤ 9) ∧
        ValidGrid gSolved) :=
  ⟨gSolved_inRange, gSolved_valid,
    C1_solver_soundness (fun _ => 0) gSolved 0 gSolved 0 gSolved_inRange
      gSolved_valid (solve_full gSolved_full (fun _ => 0) 0)⟩

/-- C2: Generator clue-count contract: for each difficulty in easy, medium,
hard, whenever `generate` produces a puzzle, its non-zero cell count lies
inside that tier's inclusive range ([40,50], [32,40], [25,32]); when no
puzzle is produced the check holds vacuously. -/
theorem C2_clue_count (tape : ℕ → ℕ) (stored pos : ℕ) :
    clueCountOK (generate tape "easy" stored pos).1 40 50 = true ∧
      clueCountOK (generate tape "medium" stored pos).1 32 40 = true ∧
      clueCountOK (generate tape "hard" stored pos).1 25 32 = true := by
  refine ⟨?_, ?_, ?_⟩
  · have hd : drawClues tape "easy" stored pos = (40 + tape pos % 11, pos + 1) := by
      simp [drawClues]
    show clueCountOK (generatePipeline tape (drawClues tape "easy" stored pos).1
      (drawClues tape "easy" stored pos).2).1 40 50 = true
    rw [hd]
    have hm : tape pos % 11 < 11 := Nat.mod_lt _ (by norm_num)
    exact clueCountOK_of tape (pos + 1) _ 40 50 (by omega) (by omega) (by omega)
  · have hd : drawClues tape "medium" stored pos
        = (32 + tape pos % 9, pos + 1) := by
      simp [drawClues]
    show clueCountOK (generatePipeline tape (drawClues tape "medium" stored pos).1
      (drawClues tape "medium" stored pos).2).1 32 40 = true
    rw [hd]
    have hm : tape pos % 9 < 9 := Nat.mod_lt _ (by norm_num)
    exact clueCountOK_of tape (pos + 1) _ 32 40 (by omega) (by omega) (by omega)
  · have hd : drawClues tape "hard" stored pos = (25 + tape pos % 8, pos + 1) := by
      simp [drawClues]
    show clueCountOK (generatePipeline tape (drawClues tape "hard" stored pos).1
      (drawClues tape "hard" stored pos).2).1 25 32 = true
    rw [hd]
    have hm : tape pos % 8 < 8 := Nat.mod_lt _ (by norm_num)
    exact clueCountOK_of tape (pos + 1) _ 25 32 (by omega) (by omega) (by omega)

/-- C3: uniqueness oracle procedure: on a grid whose repeated solves all
succeed, `unique` first obtains the reference solution (call 0), then
performs further solve calls one by one; it returns `true`, after exactly
`depth` further calls, iff all of them equal the reference (witness the
final tape position), and otherwise returns `false` at the first differing
repeat `j`, making no further solve calls beyond it. -/
theorem C3_unique_procedure (tape : ℕ → ℕ) (g : Grid) (pos depth : ℕ)
    (hdepth : 1 ≤ depth)
    (hsolv : ∀ k : ℕ, k ≤ depth → (nthSolve tape g pos k).isSome) :
    ((∀ k : ℕ, 1 ≤ k → k ≤ depth →
        nthSolve tape g pos k = nthSolve tape g pos 0) ∧
      unique tape g depth pos = (some true, nthSolvePos tape g pos (depth + 1)))
    ∨ (∃ j : ℕ, 1 ≤ j ∧ j ≤ depth ∧
        nthSolve tape g pos j ≠ nthSolve tape g pos 0 ∧
        (∀ k : ℕ, 1 ≤ k → k < j →
          nthSolve tape g pos k = nthSolve tape g pos 0) ∧
        unique tape g depth pos = (some false, nthSolvePos tape g pos (j + 1))) := by
  have hf0 := hsolv 0 (by omega)
  obtain ⟨f, hf⟩ := Option.isSome_iff_exists.mp hf0
  have hchar := uniqueGo_char tape g pos f depth 0
    (fun k hk => hsolv k (by omega))
  have huq : unique tape g depth pos
      = uniqueGo tape g (some f) depth (nthSolvePos tape g pos 1) := by
    rw [unique_eq]
    have hf2 : (solveAux tape g pos).1 = some f := hf
    rw [hf2]
    rfl
  rcases hchar with ⟨hall, hres⟩ | ⟨jj, hj1, hj2, hne, hbef, hres⟩
  · left
    constructor
    · intro k hk1 hk2
      rw [hall k (by omega) (by omega), hf]
    · rw [huq]
      simp only [Nat.zero_add] at hres
      exact hres
  · right
    refine ⟨jj, by omega, by omega, ?_, ?_, ?_⟩
    · rw [hf]
      exact hne
    · intro k hk1 hk2
      rw [hbef k (by omega) hk2, hf]
    · rw [huq]
      simp only [Nat.zero_add] at hres
      exact hres

/-- C3 (witness): the procedure theorem applied to the canonical solved
grid with depth 1, whose solves all succeed immediately. -/
theorem C3_witness :
    (1 ≤ 1) ∧ (∀ k : ℕ, k ≤ 1 → (nthSolve (fun _ => 0) gSolved 0 k).isSome) ∧
      (((∀ k : ℕ, 1 ≤ k → k ≤ 1 →
          nthSolve (fun _ => 0) gSolved 0 k = nthSolve (fun _ => 0) gSolved 0 0) ∧
        unique (fun _ => 0) gSolved 1 0
          = (some true, nthSolvePos (fun _ => 0) gSolved 0 2))
      ∨ (∃ j : ℕ, 1 ≤ j ∧ j ≤ 1 ∧
          nthSolve (fun _ => 0) gSolved 0 j ≠ nthSolve (fun _ => 0) gSolved 0 0 ∧
          (∀ k : ℕ, 1 ≤ k → k < j →
            nthSolve (fun _ => 0) gSolved 0 k = nthSolve (fun _ => 0) gSolved 0 0) ∧
          unique (fun _ => 0) gSolved 1 0
            = (some false, nthSolvePos (fun _ => 0) gSolved 0 (j + 1)))) := by
  have h0 : solveAux (fun _ => 0) gSolved 0 = (some gSolved, 0) :=
    solve_full gSolved_full (fun _ => 0) 0
  have hsolv : ∀ k : ℕ, k ≤ 1 → (nthSolve (fun _ => 0) gSolved 0 k).isSome := by
    intro k hk
    cases k with
    | zero => simp [nthSolve, nthSolvePos, h0]
    | succ k2 =>
      cases k2 with
      | zero => simp [nthSolve, nthSolvePos, h0]
      | succ k3 => omega
  exact ⟨le_rfl, hsolv,
    C3_unique_procedure (fun _ => 0) gSolved 0 1 le_rfl hsolv⟩

/-- C4: Validator correctness: for every grid, empty cell `(row, col)` and
value 1-9, `can_place` returns true iff the value appears in no cell of row
`row`, no cell of column `col`, and no cell of the 3x3 box with top-left
corner `(row/3*3, col/3*3)` (integer floor division, via `boxIdx`). -/
theorem C4_validator_correct (g : Grid) (row col : Fin 9) (value : ℕ)
    (hempty : g row col = 0) (h1 : 1 ≤ value) (h9 : value ≤ 9) :
    can_place row col value g = true ↔
      (∀ i : Fin 9, g row i ≠ value) ∧ (∀ i : Fin 9, g i col ≠ value) ∧
      (∀ i j : Fin 3, g (boxIdx row j) (boxIdx col i) ≠ value) :=
  can_place_iff row col value g

/-- C4 (witness): the validator characterization at the empty grid for
value 5 at cell (0, 0). -/
theorem C4_witness :
    zeroGrid 0 0 = 0 ∧ 1 ≤ 5 ∧ 5 ≤ 9 ∧
      (can_place 0 0 5 zeroGrid = true ↔
        (∀ i : Fin 9, zeroGrid 0 i ≠ 5) ∧ (∀ i : Fin 9, zeroGrid i 0 ≠ 5) ∧
        (∀ i j : Fin 3, zeroGrid (boxIdx 0 j) (boxIdx 0 i) ≠ 5)) :=
  ⟨rfl, by norm_num, by norm_num,
    C4_validator_correct zeroGrid 0 0 5 rfl (by norm_num) (by norm_num)⟩

/-- C5 (counterexample): on the single-clue board with target 0 (one more
clue than the target, no inherited exclusions), `remove_numbers` returns
`None` with the cutoff untripped, yet the sole candidate coordinate
`(0, 0)` — non-zero and not excluded — was never tentatively zeroed and
tested: the drawing loop pops it, sees the list run empty, and discards it
untested.  The claim that every candidate is considered before `None` is
returned is therefore false. -/
theorem C5_counterexample :
    0 < nonZeroCount gSingle ∧ gSingle 0 0 ≠ 0 ∧
      (removeNumbers (fun _ => 0) 0 gSingle [] 0).result = some none ∧
      (removeNumbers (fun _ => 0) 0 gSingle [] 0).cutoff = false ∧
      ((0, 0) : Coord) ∉ (removeNumbers (fun _ => 0) 0 gSingle [] 0).tested := by
  rw [removeNumbers_gSingle]
  refine ⟨by rw [gSingle_count]; norm_num, by decide, rfl, rfl, by simp⟩

/-- C5 (amended): in every invocation of `remove_numbers` where the filled
count exceeds the target and which returns `None` without tripping the
exclusion-size cutoff, every currently non-zero coordinate not present in
the inherited exclusion set has been tentatively zeroed and tested with
`unique`, except possibly one final drawn coordinate, which is discarded
untested when the candidate list runs empty. -/
theorem C5_candidate_coverage (tape : ℕ → ℕ) (clues : ℕ) (g : Grid)
    (excl : List Coord) (pos : ℕ) (hgt : clues < nonZeroCount g)
    (hres : (removeNumbers tape clues g excl pos).result = some none)
    (hcut : (removeNumbers tape clues g excl pos).cutoff = false) :
    ∃ d : Coord, ∀ c : Coord, g c.1 c.2 ≠ 0 → c ∉ excl →
      c ∈ (removeNumbers tape clues g excl pos).tested ∨ c = d := by
  rw [removeNumbers_above tape clues g excl pos hgt] at hres hcut ⊢
  obtain ⟨d, hd⟩ := removeLoop_coverage tape clues _ (nonzeroIndices g).length
    (nonzeroIndices g) le_rfl (nonzeroIndices_nodup g) g excl pos []
    (nonzeroIndices_spec g) hres hcut
  exact ⟨d, fun c hc hce => hd c (nonzeroIndices_complete g hc) hce⟩

/-- C5 (witness): the amended coverage theorem applied to the single-clue
board with target 0. -/
theorem C5_witness :
    0 < nonZeroCount gSingle ∧
      (removeNumbers (fun _ => 0) 0 gSingle [] 0).result = some none ∧
      (removeNumbers (fun _ => 0) 0 gSingle [] 0).cutoff = false ∧
      (∃ d : Coord, ∀ c : Coord, gSingle c.1 c.2 ≠ 0 → c ∉ ([] : List Coord) →
        c ∈ (removeNumbers (fun _ => 0) 0 gSingle [] 0).tested ∨ c = d) := by
  have h1 : (0 : ℕ) < nonZeroCount gSingle := by rw [gSingle_count]; norm_num
  have h2 : (removeNumbers (fun _ => 0) 0 gSingle [] 0).result = some none := by
    rw [removeNumbers_gSingle]
  have h3 : (removeNumbers (fun _ => 0) 0 gSingle [] 0).cutoff = false := by
    rw [removeNumbers_gSingle]
  exact ⟨h1, h2, h3,
    C5_candidate_coverage (fun _ => 0) 0 gSingle [] 0 h1 h2 h3⟩

/-- C6: Solver termination: `solve` is a total function of its inputs (the
embedding `solveAux` is defined by well-founded recursion on the number of
empty cells), and its recursion depth never exceeds 81 nested calls — one
per cell: running the solver with an explicit nesting budget of 81
(`solveFuelGo`, which refuses by returning `none` if the budget would be
exceeded) always completes and computes exactly `solveAux`. -/
theorem C6_termination_depth (tape : ℕ → ℕ) (g : Grid) (pos : ℕ) :
    solveFuelGo tape 81 g pos = some (solveAux tape g pos) :=
  solveFuel_eq tape 81 g (zerosCount_le g) pos

/-- C7: Invalid-input rejection fails in the code: `gBad` holds the
out-of-range value 10 at cell (0, 0), yet `solve` performs no validation
whatsoever — it accepts the malformed grid and returns it as the
"solution" instead of reporting a contract violation to the caller. -/
theorem C7_no_input_validation :
    (∃ y x : Fin 9, 9 < gBad y x) ∧
      ∀ (tape : ℕ → ℕ) (pos : ℕ), solveAux tape gBad pos = (some gBad, pos) :=
  ⟨⟨0, 0, by decide⟩, fun tape pos => solve_full gBad_full tape pos⟩

/-- C8: full-grid passthrough without validation: on every grid with no
empty cell, `solve` returns that grid itself as the solution, with no
constraint check on the pre-filled cells. -/
theorem C8_full_passthrough (tape : ℕ → ℕ) (g : Grid) (pos : ℕ)
    (hfull : ∀ y x : Fin 9, g y x ≠ 0) :
    solveAux tape g pos = (some g, pos) :=
  solve_full hfull tape pos

/-- C8 (witness): the passthrough applied to the all-ones grid, which
violates the validity invariant — demonstrating that no validation of
pre-filled cells is performed. -/
theorem C8_witness :
    (∀ y x : Fin 9, gOnes y x ≠ 0) ∧ ¬ ValidGrid gOnes ∧
      solveAux (fun _ => 0) gOnes 0 = (some gOnes, 0) :=
  ⟨gOnes_full, gOnes_not_valid,
    C8_full_passthrough (fun _ => 0) gOnes 0 gOnes_full⟩

/-- C9: below-target passthrough: whenever the non-zero cell count of the
input is at most the current clue target (including strictly below it),
`remove_numbers` immediately returns a copy of the grid unchanged. -/
theorem C9_below_target (tape : ℕ → ℕ) (clues : ℕ) (g : Grid)
    (excl : List Coord) (pos : ℕ) (h : nonZeroCount g ≤ clues) :
    removeNumbers tape clues g excl pos = ⟨some (some g), pos, [], false⟩ :=
  removeNumbers_below tape clues g excl pos (by omega)

/-- C9 (witness): the passthrough applied to the empty grid with target 0
(count 0, equal to the target). -/
theorem C9_witness :
    nonZeroCount zeroGrid ≤ 0 ∧
      removeNumbers (fun _ => 0) 0 zeroGrid [] 0
        = ⟨some (some zeroGrid), 0, [], false⟩ := by
  have h : nonZeroCount zeroGrid ≤ 0 := by decide
  exact ⟨h, C9_below_target (fun _ => 0) 0 zeroGrid [] 0 h⟩

/-- C10: unrecognized difficulty: for every difficulty string outside
easy/medium/hard, `generate` raises no error and leaves the clue-target
field untouched (no randomness is drawn for it); it proceeds with the
previously stored target. -/
theorem C10_unknown_difficulty (tape : ℕ → ℕ) (difficulty : String)
    (stored pos : ℕ) (h1 : difficulty ≠ "easy") (h2 : difficulty ≠ "medium")
    (h3 : difficulty ≠ "hard") :
    drawClues tape difficulty stored pos = (stored, pos) ∧
      generate tape difficulty stored pos
        = ((generatePipeline tape stored pos).1, stored,
            (generatePipeline tape stored pos).2) := by
  have hd : drawClues tape difficulty stored pos = (stored, pos) := by
    unfold drawClues
    rw [if_neg h1, if_neg h2, if_neg h3]
  refine ⟨hd, ?_⟩
  unfold generate
  rw [hd]

/-- C10 (witness): the stale-target behaviour on the difficulty string
"expert" with stored target 7. -/
theorem C10_witness :
    ("expert" ≠ "easy") ∧ ("expert" ≠ "medium") ∧ ("expert" ≠ "hard") ∧
      drawClues (fun _ => 0) "expert" 7 0 = (7, 0) ∧
      generate (fun _ => 0) "expert" 7 0
        = ((generatePipeline (fun _ => 0) 7 0).1, 7,
            (generatePipeline (fun _ => 0) 7 0).2) := by
  have h1 : ("expert" : String) ≠ "easy" := by decide
  have h2 : ("expert" : String) ≠ "medium" := by decide
  have h3 : ("expert" : String) ≠ "hard" := by decide
  obtain ⟨hd, hg⟩ := C10_unknown_difficulty (fun _ => 0) "expert" 7 0 h1 h2 h3
  exact ⟨h1, h2, h3, hd, hg⟩
